import Mathlib

/-!
# Verification of the siguwi single-instance signing orchestrator

Shallow embedding of the orchestration core of the `siguwi` code-signing
tool (`src/siguwi-process.c`, `src/siguwi-ini.c`, `src/utf8.c`,
`src/htableo.c`) together with proofs of the specified properties.

Machine integers are modelled as `Nat`; `wchar_t` values are 16-bit code
units (`Nat` below `2^16` wherever it matters), byte buffers are
`List Nat` of values below `256`.  External Windows primitives
(pipes, the credential UI, DPAPI) appear as explicit environment records;
everything else is translated directly from the C sources.
-/

set_option maxRecDepth 10000

namespace Siguwi

/-! ## UTF-8 decoder (`utf8.c`, `utf8.h`) -/

/-- Replacement code point returned by the parser on error (`UTF8_ERROR`). -/
def UTF8_ERROR : Nat := 0xFFFD

/-- Sentinel meaning "more input needed" (`UTF8_MORE`, `0xFFFFFFFF`). -/
def UTF8_MORE : Nat := 0xFFFFFFFF

/-- UTF-8 parser context (`tUtf8Ctx`): accumulated code point and the number
of continuation bytes still expected. -/
structure Utf8Ctx where
  cp : Nat
  rem : Nat
deriving DecidableEq, Repr

/-- Fresh parser context (`ZeroMemory`). -/
def Utf8Ctx.init : Utf8Ctx := ⟨0, 0⟩

/-- `utf8_parse` from `utf8.c`: feed one byte, obtain the updated context and
either a code point, `UTF8_ERROR`, or `UTF8_MORE`. -/
def utf8_parse (ctx : Utf8Ctx) (b : Nat) : Utf8Ctx × Nat :=
  if ctx.rem = 0 then
    if b ≤ 0x7F then (ctx, b)
    else if b &&& 0xE0 = 0xC0 then (⟨b &&& 0x1F, 1⟩, UTF8_MORE)
    else if b &&& 0xF0 = 0xE0 then (⟨b &&& 0x0F, 2⟩, UTF8_MORE)
    else if b &&& 0xF8 = 0xF0 then (⟨b &&& 0x07, 3⟩, UTF8_MORE)
    else (ctx, UTF8_ERROR)
  else
    if b &&& 0xC0 ≠ 0x80 then ({ ctx with rem := 0 }, UTF8_ERROR)
    else
      let cp := (ctx.cp <<< 6) ||| (b &&& 0x3F)
      if ctx.rem - 1 = 0 then (⟨cp, 0⟩, cp)
      else (⟨cp, ctx.rem - 1⟩, UTF8_MORE)

/-! ## Subprocess output decoder (`processHandleReadComplete`) -/

/-- `PROCESS_MAX_OUTPUT` (`siguwi.h`): cap on decoded characters kept per job. -/
def PROCESS_MAX_OUTPUT : Nat := 1024 * 1024

/-- The one-time truncation notice appended when the cap is reached
(`processHandleReadComplete`). -/
def truncNotice : List Nat :=
  (("\r\n" ++ String.mk (List.replicate 80 '-') ++
    "\r\nThe output has been truncated here.").toList).map Char.toNat

/-- Decoder state carried across read completions in `tIpcWndCtx`:
`utf8` context, `lastChar`, `outputLen` and the accumulated UTF-16 output
(`proc->output`). -/
structure OutSt where
  utf8 : Utf8Ctx
  lastChar : Nat
  outputLen : Nat
  output : List Nat
deriving DecidableEq, Repr

/-- Decoder state right after `processStart` resets it. -/
def OutSt.init : OutSt := ⟨Utf8Ctx.init, 0, 0, []⟩

/-- One iteration of the byte loop in `processHandleReadComplete`
(lines 591-617): parse the byte; when a code point completes, clamp values
above `U+10FFFF` to the error marker, insert a `\r` before a bare `\n`,
drop `NUL`, and expand supplementary-plane code points to a surrogate pair.
The loop guard `*outputLen < PROCESS_MAX_OUTPUT` is part of each step. -/
def procOutByte (s : OutSt) (b : Nat) : OutSt :=
  if s.outputLen < PROCESS_MAX_OUTPUT then
    let r := utf8_parse s.utf8 b
    if r.2 = UTF8_MORE then { s with utf8 := r.1 }
    else
      let cp := if r.2 > 0x10FFFF then UTF8_ERROR else r.2
      let out1 :=
        if cp < 0x10000 then
          (if cp = 10 ∧ s.lastChar ≠ 13 then s.output ++ [13] else s.output) ++
            (if cp ≠ 0 then [cp] else [])
        else
          s.output ++ [((cp - 0x10000) >>> 10) + 0xD800,
                       ((cp - 0x10000) &&& 0x3FF) + 0xDC00]
      { utf8 := r.1, lastChar := cp, outputLen := s.outputLen + 1, output := out1 }
  else s

/-- The byte loop of `processHandleReadComplete` over one received chunk. -/
def procOutBytes (s : OutSt) (bs : List Nat) : OutSt := bs.foldl procOutByte s

/-- One full `processHandleReadComplete` invocation with a non-empty data
chunk: run the byte loop, then append the truncation notice when characters
were added and the cap was reached (`added` in the C code is true exactly
when `outputLen` grew). -/
def procOutChunk (s : OutSt) (bs : List Nat) : OutSt :=
  let s' := procOutBytes s bs
  if s.outputLen < s'.outputLen ∧ PROCESS_MAX_OUTPUT ≤ s'.outputLen then
    { s' with output := s'.output ++ truncNotice }
  else s'

/-- Feeding a sequence of chunks through successive read completions. -/
def procOutChunks (s : OutSt) (cs : List (List Nat)) : OutSt := cs.foldl procOutChunk s

/-- Modelled from the spec: the claim's reading of line-ending normalization,
where the carriage return is inserted before a line feed precisely when the
immediately preceding EMITTED character (the last element of the output so
far) is not a carriage return.  The code instead tests the last DECODED code
point (`ctx->lastChar`); the two differ once a dropped `NUL` intervenes. -/
def specOutByteEmitted (s : OutSt) (b : Nat) : OutSt :=
  if s.outputLen < PROCESS_MAX_OUTPUT then
    let r := utf8_parse s.utf8 b
    if r.2 = UTF8_MORE then { s with utf8 := r.1 }
    else
      let cp := if r.2 > 0x10FFFF then UTF8_ERROR else r.2
      let out1 :=
        if cp < 0x10000 then
          (if cp = 10 ∧ s.output.getLast? ≠ some 13 then s.output ++ [13] else s.output) ++
            (if cp ≠ 0 then [cp] else [])
        else
          s.output ++ [((cp - 0x10000) >>> 10) + 0xD800,
                       ((cp - 0x10000) &&& 0x3FF) + 0xDC00]
      { utf8 := r.1, lastChar := cp, outputLen := s.outputLen + 1, output := out1 }
  else s

/-- The claim's decoder over a chunk of bytes. -/
def specOutBytesEmitted (s : OutSt) (bs : List Nat) : OutSt := bs.foldl specOutByteEmitted s

theorem procOutByte_len_le (s : OutSt) (b : Nat) :
    s.outputLen ≤ (procOutByte s b).outputLen := by
  unfold procOutByte
  by_cases h1 : s.outputLen < PROCESS_MAX_OUTPUT
  · by_cases h2 : (utf8_parse s.utf8 b).2 = UTF8_MORE <;> simp [h1, h2, Nat.le_succ]
  · simp [h1]

theorem procOutBytes_len_le (s : OutSt) (bs : List Nat) :
    s.outputLen ≤ (procOutBytes s bs).outputLen := by
  induction bs generalizing s with
  | nil => simp [procOutBytes]
  | cons b bs ih =>
    calc s.outputLen ≤ (procOutByte s b).outputLen := procOutByte_len_le s b
      _ ≤ (procOutBytes (procOutByte s b) bs).outputLen := ih _
      _ = (procOutBytes s (b :: bs)).outputLen := by simp [procOutBytes]

theorem procOutByte_capped (s : OutSt) (b : Nat)
    (h : PROCESS_MAX_OUTPUT ≤ s.outputLen) : procOutByte s b = s := by
  unfold procOutByte
  simp [Nat.not_lt.mpr h]

theorem procOutBytes_capped (s : OutSt) (bs : List Nat)
    (h : PROCESS_MAX_OUTPUT ≤ s.outputLen) : procOutBytes s bs = s := by
  induction bs with
  | nil => rfl
  | cons b bs ih => simp [procOutBytes, procOutByte_capped s b h] at ih ⊢; exact ih

theorem procOutBytes_append (s : OutSt) (a b : List Nat) :
    procOutBytes s (a ++ b) = procOutBytes (procOutBytes s a) b := by
  simp [procOutBytes, List.foldl_append]

/-- Composing two read completions equals one completion on the concatenated
bytes: the decoder state, the appended text, and the truncation notice all
agree. -/
theorem procOutChunk_append (s : OutSt) (a b : List Nat) :
    procOutChunk (procOutChunk s a) b = procOutChunk s (a ++ b) := by
  unfold procOutChunk
  rw [procOutBytes_append]
  set s1 := procOutBytes s a with hs1
  by_cases hA : s.outputLen < s1.outputLen ∧ PROCESS_MAX_OUTPUT ≤ s1.outputLen
  · -- the first chunk already hit the cap and appended the notice
    rw [if_pos hA]
    have hcapped : procOutBytes { s1 with output := s1.output ++ truncNotice } b =
        { s1 with output := s1.output ++ truncNotice } :=
      procOutBytes_capped _ _ hA.2
    rw [hcapped]
    have hb : procOutBytes s1 b = s1 := procOutBytes_capped _ _ hA.2
    rw [hb, if_neg (by simp), if_pos hA]
  · rw [if_neg hA]
    set s2 := procOutBytes s1 b with hs2
    have h01 : s.outputLen ≤ s1.outputLen := procOutBytes_len_le s a
    have h12 : s1.outputLen ≤ s2.outputLen := procOutBytes_len_le s1 b
    by_cases hM : PROCESS_MAX_OUTPUT ≤ s2.outputLen
    · have hiff : s1.outputLen < s2.outputLen ↔ s.outputLen < s2.outputLen := by
        constructor
        · intro h; omega
        · intro h
          rcases Nat.lt_or_ge s1.outputLen s2.outputLen with h' | h'
          · exact h'
          · -- s1.outputLen = s2.outputLen would contradict ¬hA
            exfalso
            apply hA
            constructor <;> omega
      by_cases h1 : s1.outputLen < s2.outputLen
      · rw [if_pos ⟨h1, hM⟩, if_pos ⟨hiff.mp h1, hM⟩]
      · rw [if_neg (by tauto), if_neg (by rw [← hiff] at *; tauto)]
    · rw [if_neg (by tauto), if_neg (by tauto)]

/-- Any sequence of chunks equals the single-chunk run on their join. -/
theorem procOutChunks_join (s : OutSt) (cs : List (List Nat)) :
    procOutChunks s cs = procOutChunk s cs.flatten := by
  induction cs generalizing s with
  | nil =>
    simp [procOutChunks, procOutChunk, procOutBytes]
  | cons c cs ih =>
    simp only [procOutChunks, List.foldl_cons, List.flatten_cons]
    rw [← procOutChunk_append]
    exact ih _

theorem procOutByte_lf_rule (lc : Nat) (out : List Nat) :
    procOutByte ⟨Utf8Ctx.init, lc, 0, out⟩ 10 =
      ⟨Utf8Ctx.init, 10, 1, out ++ if lc = 13 then [10] else [13, 10]⟩ := by
  by_cases h : lc = 13 <;>
    simp [procOutByte, utf8_parse, Utf8Ctx.init, UTF8_MORE, UTF8_ERROR, PROCESS_MAX_OUTPUT, h]

/-- **C8, counterexample.** The code keys the carriage-return insertion on the
last DECODED code point (`ctx->lastChar`), not on the last EMITTED character
as the claim states.  On the bytes `[0x0D, 0x00, 0x0A]` the character emitted
immediately before the line feed is a carriage return (the `NUL` was dropped),
yet the code still inserts another carriage return, so its output differs from
the claim's normalization. -/
theorem C8_cr_rule_counterexample :
    (procOutBytes OutSt.init [13, 0]).output = [13]
    ∧ (procOutBytes OutSt.init [13, 0, 10]).output = [13, 13, 10]
    ∧ (procOutBytes OutSt.init [13, 0, 10]).output ≠
        (specOutBytesEmitted OutSt.init [13, 0, 10]).output := by
  refine ⟨by decide, by decide, by decide⟩

/-- **C8** (amended: the carriage return is inserted before every line feed
whose immediately preceding decoded code point — not emitted character — was
not a carriage return; a dropped `NUL` counts as the preceding decoded code
point).  Decoding of subprocess output is invariant under re-chunking:
feeding the same byte stream split at any boundary, or as any sequence of
chunks, produces the same decoder state and appended log text; code points
above `U+FFFF` become surrogate pairs; `"a\n b"` gains a `\r` while
`"a\r\n b"` is unchanged; and a completed line feed appends `[13, 10]`
exactly when the previously decoded code point was not `13`. -/
theorem C8_output_decoder_rechunk_invariant :
    (∀ (s : OutSt) (cs : List (List Nat)), procOutChunks s cs = procOutChunk s cs.flatten)
    ∧ (∀ (s : OutSt) (a b : List Nat), procOutChunk (procOutChunk s a) b = procOutChunk s (a ++ b))
    ∧ (procOutChunk OutSt.init [97, 10, 98]).output = [97, 13, 10, 98]
    ∧ (procOutChunk OutSt.init [97, 13, 10, 98]).output = [97, 13, 10, 98]
    ∧ (procOutChunk OutSt.init [0xF0, 0x9F, 0x98, 0x80]).output = [0xD83D, 0xDE00]
    ∧ (∀ (lc : Nat) (out : List Nat),
        procOutByte ⟨Utf8Ctx.init, lc, 0, out⟩ 10 =
          ⟨Utf8Ctx.init, 10, 1, out ++ if lc = 13 then [10] else [13, 10]⟩) :=
  ⟨procOutChunks_join, procOutChunk_append, by decide, by decide, by decide,
   procOutByte_lf_rule⟩

/-- **C10.** A decoded `U+0000` is never appended to the job log but still
increments the decoded-character count toward the `PROCESS_MAX_OUTPUT` cap;
every other decoded code point at or below `U+FFFF` is appended as a single
UTF-16 code unit (after the line-ending fix). -/
theorem C10_nul_dropped_but_counted (s : OutSt) (b : Nat)
    (hlen : s.outputLen < PROCESS_MAX_OUTPUT)
    (hcp : (utf8_parse s.utf8 b).2 ≠ UTF8_MORE)
    (hbmp : (utf8_parse s.utf8 b).2 < 0x10000) :
    (procOutByte s b).outputLen = s.outputLen + 1
    ∧ ((utf8_parse s.utf8 b).2 = 0 → (procOutByte s b).output = s.output)
    ∧ ((utf8_parse s.utf8 b).2 ≠ 0 → (procOutByte s b).output =
        (if (utf8_parse s.utf8 b).2 = 10 ∧ s.lastChar ≠ 13 then s.output ++ [13]
         else s.output) ++ [(utf8_parse s.utf8 b).2]) := by
  have hclamp : ¬ ((utf8_parse s.utf8 b).2 > 0x10FFFF) := by omega
  refine ⟨?_, ?_, ?_⟩
  · simp [procOutByte, hlen, hcp]
  · intro h0
    simp [procOutByte, hlen, hcp, hclamp, h0, UTF8_MORE]
  · intro h0
    simp [procOutByte, hlen, hcp, hclamp, h0, hbmp]

/-- Closed instance of `C10_nul_dropped_but_counted` at the single byte `0`
from the initial decoder state. -/
theorem C10_nul_dropped_but_counted_witness :
    (procOutByte OutSt.init 0).outputLen = 0 + 1 ∧ (procOutByte OutSt.init 0).output = [] :=
  ⟨(C10_nul_dropped_but_counted OutSt.init 0 (by decide) (by decide) (by decide)).1,
   (C10_nul_dropped_but_counted OutSt.init 0 (by decide) (by decide) (by decide)).2.1 (by decide)⟩

/-! ## IPC protocol frame decoder (`ipcHandleReadComplete`, `ipcReadAsync`) -/

/-- `sizeof(ctx->buf)` in bytes: `MAX_CONFIG_STR_LEN * sizeof(wchar_t)`. -/
def IPC_BUF_SIZE : Nat := 4096 * 2

/-- `tIpcState`: which NUL-terminated token the decoder expects next. -/
inductive IpcState
  | certId
  | cardName
  | cardReader
  | signApp
  | file
deriving DecidableEq, Repr

/-- One enqueued signing job as produced by `processAddFile` from a decoded
frame: the certificate identity triple (`tRcIniConfigBase` contents), the
signing command (`tRcWStr`), and the file path token. -/
structure Job where
  certId : List Nat
  cardName : List Nat
  cardReader : List Nat
  signApp : List Nat
  path : List Nat
deriving DecidableEq, Repr

/-- IPC part of `tIpcWndCtx`: receive buffer bytes (`buf`/`bufLen`), token
state, the header fields collected so far, and the jobs enqueued. -/
structure IpcSt where
  buf : List Nat
  state : IpcState
  certId : List Nat
  cardName : List Nat
  cardReader : List Nat
  signApp : List Nat
  jobs : List Job
deriving DecidableEq, Repr

/-- Decoder state right after `ipcListen` on a fresh context. -/
def IpcSt.init : IpcSt := ⟨[], .certId, [], [], [], [], []⟩

/-- Reinterpret the byte buffer as little-endian UTF-16 code units:
`(const wchar_t *)(ctx->buf)` with `ctx->bufLen >> 1` complete units
(a trailing odd byte yields no unit). -/
def toU16s : List Nat → List Nat
  | [] => []
  | [_] => []
  | b0 :: b1 :: rest => (b0 + 256 * b1) :: toU16s rest

/-- The terminator scan `for (; it < endIt && *it != 0; ++it)`: index of the
first `NUL` code unit, if any. -/
def scanNul : List Nat → Option Nat
  | [] => none
  | u :: rest =>
    if u = 0 then some 0
    else
      match scanNul rest with
      | some i => some (i + 1)
      | none => none

/-- Consuming one complete token (the `switch (ctx->state)` in
`ipcHandleReadComplete`): the first four tokens populate the header fields;
from the fifth on, each token is a file path appended to the job list with
the header context already collected (`processAddFile`). -/
def ipcToken (s : IpcSt) (tok : List Nat) : IpcSt :=
  match s.state with
  | .certId => { s with state := .cardName, certId := tok }
  | .cardName => { s with state := .cardReader, cardName := tok }
  | .cardReader => { s with state := .signApp, cardReader := tok }
  | .signApp => { s with state := .file, signApp := tok }
  | .file => { s with jobs := s.jobs ++ [⟨s.certId, s.cardName, s.cardReader, s.signApp, tok⟩] }

/-- The `while (ctx->bufLen > 0)` token loop: find a `NUL` among the complete
code units, consume the token and the bytes up to and including the
terminator, and repeat; stop when the buffer holds no complete terminated
token ("need more data").  `fuel` is a termination bound; every iteration
removes at least two bytes, so any `fuel ≥ buf.length` computes the true
fixpoint. -/
def ipcLoop : Nat → IpcSt → IpcSt
  | 0, s => s
  | fuel + 1, s =>
    if s.buf.isEmpty then s
    else
      match scanNul (toU16s s.buf) with
      | none => s
      | some idx =>
        ipcLoop fuel
          { ipcToken s ((toU16s s.buf).take idx) with buf := s.buf.drop ((idx + 1) * 2) }

/-- Run the token loop to its fixpoint. -/
def ipcRun (s : IpcSt) : IpcSt := ipcLoop s.buf.length s

/-- One `ipcHandleReadComplete` invocation with a non-empty chunk of received
bytes: append them to the buffer (`ctx->bufLen += dwNumberOfBytesTransfered`)
and run the token loop. -/
def ipcFeed (s : IpcSt) (chunk : List Nat) : IpcSt :=
  ipcRun { s with buf := s.buf ++ chunk }

theorem toU16s_length : ∀ (a : List Nat), (toU16s a).length = a.length / 2
  | [] => rfl
  | [_] => by simp [toU16s]
  | b0 :: b1 :: rest => by
    have := toU16s_length rest
    simp only [toU16s, List.length_cons, this]
    omega

theorem toU16s_append : ∀ (a b : List Nat), ∃ t, toU16s (a ++ b) = toU16s a ++ t
  | [], b => ⟨toU16s b, by simp [toU16s]⟩
  | [b0], b => ⟨toU16s (b0 :: b), by simp [toU16s]⟩
  | b0 :: b1 :: rest, b => by
    obtain ⟨t, ht⟩ := toU16s_append rest b
    exact ⟨t, by simp [toU16s, ht]⟩

theorem scanNul_cons_zero (rest : List Nat) : scanNul (0 :: rest) = some 0 := rfl

theorem scanNul_cons_ne_none (u : Nat) (rest : List Nat) (hu : u ≠ 0)
    (hs : scanNul rest = none) : scanNul (u :: rest) = none := by
  unfold scanNul
  rw [if_neg hu, hs]

theorem scanNul_cons_ne_some (u : Nat) (rest : List Nat) (i : Nat) (hu : u ≠ 0)
    (hs : scanNul rest = some i) : scanNul (u :: rest) = some (i + 1) := by
  unfold scanNul
  rw [if_neg hu, hs]

theorem scanNul_some_lt : ∀ (us : List Nat) (i : Nat), scanNul us = some i → i < us.length
  | [], i, h => by simp [scanNul] at h
  | u :: rest, i, h => by
    by_cases hu : u = 0
    · subst hu
      rw [scanNul_cons_zero] at h
      injection h with h
      simp [← h]
    · cases hscan : scanNul rest with
      | none =>
        rw [scanNul_cons_ne_none u rest hu hscan] at h
        exact absurd h (by simp)
      | some j =>
        rw [scanNul_cons_ne_some u rest j hu hscan] at h
        injection h with h
        have := scanNul_some_lt rest j hscan
        simp only [List.length_cons]
        omega

theorem scanNul_append_some : ∀ (us vs : List Nat) (i : Nat),
    scanNul us = some i → scanNul (us ++ vs) = some i
  | [], vs, i, h => by simp [scanNul] at h
  | u :: rest, vs, i, h => by
    by_cases hu : u = 0
    · subst hu
      rw [scanNul_cons_zero] at h
      rw [List.cons_append, scanNul_cons_zero]
      exact h
    · cases hscan : scanNul rest with
      | none =>
        rw [scanNul_cons_ne_none u rest hu hscan] at h
        exact absurd h (by simp)
      | some j =>
        rw [scanNul_cons_ne_some u rest j hu hscan] at h
        rw [List.cons_append,
          scanNul_cons_ne_some u (rest ++ vs) j hu (scanNul_append_some rest vs j hscan)]
        exact h

theorem scanNul_none_of_ne (us : List Nat) (h : ∀ u ∈ us, u ≠ 0) :
    scanNul us = none := by
  induction us with
  | nil => rfl
  | cons u rest ih =>
    have hu : u ≠ 0 := h u (by simp)
    exact scanNul_cons_ne_none u rest hu (ih fun v hv => h v (by simp [hv]))

theorem ipcLoop_nil (fuel : Nat) (s : IpcSt) (h : s.buf = []) : ipcLoop fuel s = s := by
  cases fuel with
  | zero => rfl
  | succ f => simp [ipcLoop, h]

theorem ipcLoop_none (fuel : Nat) (s : IpcSt) (h : scanNul (toU16s s.buf) = none) :
    ipcLoop fuel s = s := by
  cases fuel with
  | zero => rfl
  | succ f =>
    by_cases hb : s.buf.isEmpty
    · simp [ipcLoop, hb]
    · simp [ipcLoop, hb, h]

theorem ipcLoop_some (fuel : Nat) (s : IpcSt) (idx : Nat)
    (h : scanNul (toU16s s.buf) = some idx) :
    ipcLoop (fuel + 1) s =
      ipcLoop fuel
        { ipcToken s ((toU16s s.buf).take idx) with buf := s.buf.drop ((idx + 1) * 2) } := by
  have hb : ¬ s.buf.isEmpty := by
    intro hb
    rw [List.isEmpty_iff] at hb
    rw [hb] at h
    simp [toU16s, scanNul] at h
  simp [ipcLoop, hb, h]

/-- A found terminator lies within the complete code units, so the consumed
bytes do not exceed the buffer. -/
theorem scanNul_idx_bound (buf : List Nat) (idx : Nat)
    (h : scanNul (toU16s buf) = some idx) : (idx + 1) * 2 ≤ buf.length := by
  have h1 := scanNul_some_lt _ _ h
  rw [toU16s_length] at h1
  omega

/-- The token loop computes the same fixpoint for any sufficient fuel. -/
theorem ipcLoop_fuel_eq : ∀ (f1 : Nat) (f2 : Nat) (s : IpcSt),
    s.buf.length ≤ f1 → s.buf.length ≤ f2 → ipcLoop f1 s = ipcLoop f2 s := by
  intro f1
  induction f1 with
  | zero =>
    intro f2 s h1 _
    have hnil : s.buf = [] := by simpa using h1
    rw [ipcLoop_nil 0 s hnil, ipcLoop_nil f2 s hnil]
  | succ f1 ih =>
    intro f2 s h1 h2
    cases f2 with
    | zero =>
      have hnil : s.buf = [] := by simpa using h2
      rw [ipcLoop_nil (f1 + 1) s hnil, ipcLoop_nil 0 s hnil]
    | succ f2 =>
      cases hscan : scanNul (toU16s s.buf) with
      | none => rw [ipcLoop_none _ s hscan, ipcLoop_none _ s hscan]
      | some idx =>
        rw [ipcLoop_some f1 s idx hscan, ipcLoop_some f2 s idx hscan]
        have hbound := scanNul_idx_bound s.buf idx hscan
        have hlen : (s.buf.drop ((idx + 1) * 2)).length = s.buf.length - (idx + 1) * 2 :=
          List.length_drop _ _
        exact ih f2 _ (by simp only [hlen]; omega) (by simp only [hlen]; omega)

theorem ipcRun_none (s : IpcSt) (h : scanNul (toU16s s.buf) = none) : ipcRun s = s :=
  ipcLoop_none _ s h

theorem ipcRun_some (s : IpcSt) (idx : Nat) (h : scanNul (toU16s s.buf) = some idx) :
    ipcRun s =
      ipcRun { ipcToken s ((toU16s s.buf).take idx) with buf := s.buf.drop ((idx + 1) * 2) } := by
  have hbound := scanNul_idx_bound s.buf idx h
  unfold ipcRun
  cases hlen : s.buf.length with
  | zero =>
    exfalso
    have hnil : s.buf = [] := by
      cases hb : s.buf with
      | nil => rfl
      | cons x xs => rw [hb] at hlen; simp at hlen
    rw [hnil] at h
    simp [toU16s, scanNul] at h
  | succ k =>
    rw [← hlen, show s.buf.length = (s.buf.length - 1) + 1 by omega,
      ipcLoop_some (s.buf.length - 1) s idx h]
    apply ipcLoop_fuel_eq
    · simp only [List.length_drop]
      omega
    · simp only [List.length_drop]
      omega

/-- The header fields, token state, and job list produced by `ipcToken` do not
depend on the byte buffer. -/
theorem ipcToken_buf_irrel (s : IpcSt) (B C tok : List Nat) :
    { ipcToken { s with buf := C } tok with buf := B } = { ipcToken s tok with buf := B } := by
  cases hs : s.state <;> simp [ipcToken, hs]

/-- Central incrementality lemma: running the token loop, then appending more
bytes and running again, equals running once on the combined buffer. -/
theorem ipcRun_extend_aux : ∀ (n : Nat) (s : IpcSt), s.buf.length ≤ n → ∀ (e : List Nat),
    ipcRun { ipcRun s with buf := (ipcRun s).buf ++ e } = ipcRun { s with buf := s.buf ++ e } := by
  intro n
  induction n with
  | zero =>
    intro s hs e
    have hnil : s.buf = [] := by simpa using hs
    have hrun : ipcRun s = s := by
      unfold ipcRun
      exact ipcLoop_nil _ s hnil
    rw [hrun]
  | succ n ih =>
    intro s hs e
    cases hscan : scanNul (toU16s s.buf) with
    | none => rw [ipcRun_none s hscan]
    | some idx =>
      have hbound := scanNul_idx_bound s.buf idx hscan
      have hlt : idx < (toU16s s.buf).length := scanNul_some_lt _ _ hscan
      obtain ⟨t, ht⟩ := toU16s_append s.buf e
      have hscan' : scanNul (toU16s (s.buf ++ e)) = some idx := by
        rw [ht]
        exact scanNul_append_some _ _ _ hscan
      have htake : (toU16s (s.buf ++ e)).take idx = (toU16s s.buf).take idx := by
        rw [ht, List.take_append_of_le_length (le_of_lt hlt)]
      have hdrop : (s.buf ++ e).drop ((idx + 1) * 2) = s.buf.drop ((idx + 1) * 2) ++ e :=
        List.drop_append_of_le_length hbound
      rw [ipcRun_some s idx hscan]
      rw [ipcRun_some { s with buf := s.buf ++ e } idx hscan']
      have hstep :
          ({ ipcToken { s with buf := s.buf ++ e } ((toU16s (s.buf ++ e)).take idx) with
              buf := (s.buf ++ e).drop ((idx + 1) * 2) } : IpcSt) =
            { ipcToken s ((toU16s s.buf).take idx) with
              buf := s.buf.drop ((idx + 1) * 2) ++ e } := by
        rw [htake, hdrop, ipcToken_buf_irrel]
      rw [hstep]
      have hlen : ({ ipcToken s ((toU16s s.buf).take idx) with
          buf := s.buf.drop ((idx + 1) * 2) } : IpcSt).buf.length ≤ n := by
        simp only [List.length_drop]
        omega
      exact ih _ hlen e

theorem ipcRun_extend (s : IpcSt) (e : List Nat) :
    ipcRun { ipcRun s with buf := (ipcRun s).buf ++ e } = ipcRun { s with buf := s.buf ++ e } :=
  ipcRun_extend_aux s.buf.length s le_rfl e

theorem ipcRun_idem (s : IpcSt) : ipcRun (ipcRun s) = ipcRun s := by
  have h := ipcRun_extend s []
  simpa using h

/-- Feeding two chunks in sequence equals feeding their concatenation. -/
theorem ipcFeed_append (s : IpcSt) (a b : List Nat) :
    ipcFeed (ipcFeed s a) b = ipcFeed s (a ++ b) := by
  unfold ipcFeed
  have h := ipcRun_extend { s with buf := s.buf ++ a } b
  simpa [List.append_assoc] using h

/-- Feeding any chunk sequence from a quiescent state equals feeding the
concatenation at once. -/
theorem ipcFeed_foldl : ∀ (cs : List (List Nat)) (s : IpcSt), ipcRun s = s →
    List.foldl ipcFeed s cs = ipcFeed s cs.flatten := by
  intro cs
  induction cs with
  | nil =>
    intro s hq
    simpa [ipcFeed] using hq.symm
  | cons c cs ih =>
    intro s hq
    simp only [List.foldl_cons, List.flatten_cons]
    rw [ih (ipcFeed s c) (ipcRun_idem _), ipcFeed_append]

/-- Encode UTF-16 code units as little-endian bytes (the client writes raw
`wchar_t` buffers with `WriteFile`). -/
def u16sToBytes : List Nat → List Nat
  | [] => []
  | u :: rest => (u % 256) :: (u / 256) :: u16sToBytes rest

/-- A string as a list of UTF-16 code units. -/
def wstr (s : String) : List Nat := s.toList.map Char.toNat

/-- One NUL-terminated protocol token as wire bytes. -/
def encTok (s : String) : List Nat := u16sToBytes (wstr s ++ [0])

/-- **C3.** Delivering a protocol frame's bytes to the frame decoder in any
partition into chunks — one byte at a time or all at once — yields the
identical decoder state and in particular the identical sequence of enqueued
jobs (same certificate identity, same signing command, same file paths in
the same order).  The final conjunct decodes the specification's example
frame into its one expected job. -/
theorem C3_frame_decoding_chunk_invariant :
    (∀ (s : IpcSt) (a b : List Nat), ipcFeed (ipcFeed s a) b = ipcFeed s (a ++ b))
    ∧ (∀ (chunks : List (List Nat)),
        List.foldl ipcFeed IpcSt.init chunks = ipcFeed IpcSt.init chunks.flatten)
    ∧ (∀ (chunks : List (List Nat)),
        (List.foldl ipcFeed IpcSt.init chunks).jobs = (ipcFeed IpcSt.init chunks.flatten).jobs)
    ∧ (ipcFeed IpcSt.init
        (encTok "C1" ++ encTok "CardA" ++ encTok "Reader1" ++ encTok "tool.exe %1 %2"
          ++ encTok "fileA.exe")).jobs =
        [⟨wstr "C1", wstr "CardA", wstr "Reader1", wstr "tool.exe %1 %2", wstr "fileA.exe"⟩] := by
  refine ⟨ipcFeed_append, fun chunks => ipcFeed_foldl chunks IpcSt.init rfl,
    fun chunks => by rw [ipcFeed_foldl chunks IpcSt.init rfl], ?_⟩
  decide

/-! ## Receive-buffer exhaustion (`ipcReadAsync` capacity, C9) -/

/-- Remaining capacity passed to `ReadFileEx`:
`sizeof(ctx->buf) - ctx->bufLen`. -/
def ipcReadCapacity (s : IpcSt) : Nat := IPC_BUF_SIZE - s.buf.length

/-- Control flow outcome of `ipcHandleReadComplete`. -/
inductive IpcReadOutcome
  | keepReading
  | lostConnection
deriving DecidableEq, Repr

/-- The context reset performed by `ipcListen` (lines 112-119): buffer
emptied, token state back to `IST_CERT_ID`, header fields cleared; the job
list is untouched. -/
def ipcListenReset (s : IpcSt) : IpcSt :=
  { buf := [], state := .certId, certId := [], cardName := [], cardReader := [],
    signApp := [], jobs := s.jobs }

/-- One `ipcHandleReadComplete` callback: with transferred bytes it runs the
token loop and re-posts a read; with zero bytes transferred it treats the
client as lost, disconnects, and re-enters listening. -/
def ipcHandleRead (s : IpcSt) (chunk : List Nat) : IpcSt × IpcReadOutcome :=
  if chunk.length > 0 then (ipcFeed s chunk, .keepReading)
  else (ipcListenReset s, .lostConnection)

/-- **C9.** A client that sends `IPC_BUF_SIZE` bytes (4096 UTF-16 code units)
containing no NUL terminator fills the receive buffer without producing a
token: no job is created, the buffer is full, the next posted read has zero
remaining capacity, and the resulting zero-byte completion is handled as a
lost connection — the context is reset for the next client and still no job
exists. -/
theorem C9_unterminated_data_fills_buffer (chunks : List (List Nat))
    (hlen : chunks.flatten.length = IPC_BUF_SIZE)
    (hnonul : ∀ u ∈ toU16s chunks.flatten, u ≠ 0) :
    (List.foldl ipcFeed IpcSt.init chunks).jobs = []
    ∧ (List.foldl ipcFeed IpcSt.init chunks).buf.length = IPC_BUF_SIZE
    ∧ ipcReadCapacity (List.foldl ipcFeed IpcSt.init chunks) = 0
    ∧ ipcHandleRead (List.foldl ipcFeed IpcSt.init chunks) [] =
        (ipcListenReset (List.foldl ipcFeed IpcSt.init chunks), .lostConnection)
    ∧ (ipcListenReset (List.foldl ipcFeed IpcSt.init chunks)).jobs = [] := by
  have hfold : List.foldl ipcFeed IpcSt.init chunks = ipcFeed IpcSt.init chunks.flatten :=
    ipcFeed_foldl chunks IpcSt.init rfl
  have hfeed : ipcFeed IpcSt.init chunks.flatten = { IpcSt.init with buf := chunks.flatten } := by
    unfold ipcFeed
    apply ipcRun_none
    exact scanNul_none_of_ne _ (by simpa using hnonul)
  rw [hfold, hfeed]
  refine ⟨rfl, hlen, ?_, ?_, rfl⟩
  · simp [ipcReadCapacity, hlen]
  · simp [ipcHandleRead]

/-- All-ones bytes pair into the nonzero code unit `0x4141`. -/
theorem toU16s_replicate_65 : ∀ (n : Nat), ∀ u ∈ toU16s (List.replicate n (65 : Nat)), u = 16705
  | 0 => by simp [toU16s]
  | 1 => by simp [List.replicate, toU16s]
  | n + 2 => by
    intro u hu
    simp only [List.replicate, toU16s, List.mem_cons] at hu
    rcases hu with h | h
    · omega
    · exact toU16s_replicate_65 n u h

/-! ## Job queue and process lifecycle (`processNext`, `processStart`,
`processFinish`, `processAddFile`, `processHandleReadComplete`) -/

/-- `tProcState` (`siguwi.h`). -/
inductive ProcState
  | idle
  | running
  | ok
  | fail
  | fileNotFound
  | brokenPipe
  | appNotFound
  | pinMissing
  | pinWrong
deriving DecidableEq, Repr

/-- A state is terminal iff it is neither `PST_IDLE` nor `PST_RUNNING`. -/
def ProcState.isTerminal : ProcState → Bool
  | .idle => false
  | .running => false
  | _ => true

/-- The states `processStart` can assign through its `newState` mechanism when
starting fails before the job reaches `PST_RUNNING`. -/
inductive StartFail
  | fail
  | brokenPipe
  | pinWrong
  | pinMissing
  | appNotFound
deriving DecidableEq, Repr

def StartFail.toState : StartFail → ProcState
  | .fail => .fail
  | .brokenPipe => .brokenPipe
  | .pinWrong => .pinWrong
  | .pinMissing => .pinMissing
  | .appNotFound => .appNotFound

/-- Environment outcome of one `processStart` attempt on an idle job: either
one of the error exits (pipe/UUID/credential/`CreateProcessW` failures)
taken before the job runs, or successful subprocess creation, where `postOk`
says whether the first `processReadAsync` succeeded and `finExit` is the
exit classification used by the immediate `processFinish` when it did not. -/
inductive StartOutcome
  | failEarly (f : StartFail)
  | success (postOk : Bool) (finExit : Bool)
deriving DecidableEq, Repr

/-- Queue-relevant state of `tIpcWndCtx`: the job states (`v`), the cursor
(`vi`), the current item (`proc`, an index into `v`), and whether a read on
the process output pipe is pending. -/
structure Sys where
  jobs : List ProcState
  vi : Nat
  proc : Option Nat
  readPending : Bool
deriving DecidableEq, Repr

def Sys.init : Sys := ⟨[], 0, none, false⟩

/-- The `processNext` guard `ctx->proc != NULL && ctx->proc->state == PST_RUNNING`. -/
def curRunning (s : Sys) : Bool :=
  match s.proc with
  | some i => decide (s.jobs[i]? = some ProcState.running)
  | none => false

/-- The scan loop `for (size_t i = ctx->vi; i < count; ++i)` of
`processNext`, with the remaining iteration count made explicit so that the
recursion is structural. -/
def findIdleGo (jobs : List ProcState) : Nat → Nat → Option Nat
  | 0, _ => none
  | n + 1, start =>
    if jobs[start]? = some ProcState.idle then some start
    else findIdleGo jobs n (start + 1)

/-- The first index at or after `start` whose job is idle, scanning to the
end of the queue. -/
def findIdleFrom (jobs : List ProcState) (start : Nat) : Option Nat :=
  findIdleGo jobs (jobs.length - start) start

/-- `processFinish`: wait for the child and classify the exit code; success
(`PST_OK`) clears the current item pointer, failure (`PST_FAIL`) leaves it.
`exitOk` stands for "the wait succeeded and the exit code was zero". -/
def processFinish (s : Sys) (exitOk : Bool) : Sys × Bool :=
  match s.proc with
  | none => (s, false)
  | some i =>
    if exitOk then ({ s with jobs := s.jobs.set i .ok, proc := none }, true)
    else ({ s with jobs := s.jobs.set i .fail }, false)

/-- The body of `processStart` up to its tail call: refuse unless the current
item exists and is idle; on an early error set the corresponding terminal
state and return `false`; on subprocess creation mark the job running and
either post the first asynchronous read (`processReadAsync`, the `.inl`
results) or, when posting fails, finish the job at once and fall through to
`processNext` (`processFinish(ctx); return processNext(ctx);`, the `.inr`
result carrying the state that `processNext` continues from). -/
def processStartCore (s : Sys) (outs : List StartOutcome) :
    (Sys × Bool × List StartOutcome) ⊕ (Sys × List StartOutcome) :=
  match s.proc with
  | none => .inl (s, false, outs)
  | some i =>
    if s.jobs[i]? = some ProcState.idle then
      match outs with
      | [] => .inl (s, false, [])
      | .failEarly f :: rest => .inl ({ s with jobs := s.jobs.set i f.toState }, false, rest)
      | .success postOk finExit :: rest =>
        let s1 := { s with jobs := s.jobs.set i .running }
        if postOk then .inl ({ s1 with readPending := true }, true, rest)
        else .inr ((processFinish s1 finExit).1, rest)
    else .inl (s, false, outs)

/-- The cursor advance of `processNext`: point `proc`/`vi` at the first idle
job at or after the cursor, or leave them unchanged when none remains. -/
def procAdvance (s : Sys) : Sys :=
  match findIdleFrom s.jobs s.vi with
  | some i => { s with proc := some i, vi := i }
  | none => s

/-- `processNext`: a no-op returning `false` while the current job is
running; otherwise move the cursor/current item to the first idle job and
invoke `processStart`.  The outcome list supplies one environment verdict per
start attempt; `fuel` bounds the `processStart → processFinish → processNext`
recursion taken when posting the first read fails (any `fuel ≥ jobs.length`
is sufficient, as every such round retires one idle job). -/
def processNextF : Nat → Sys → List StartOutcome → Sys × Bool × List StartOutcome
  | 0, s, outs =>
    if curRunning s then (s, false, outs)
    else
      match processStartCore (procAdvance s) outs with
      | .inl r => r
      | .inr (s2, rest) => (s2, false, rest)
  | fuel + 1, s, outs =>
    if curRunning s then (s, false, outs)
    else
      match processStartCore (procAdvance s) outs with
      | .inl r => r
      | .inr (s2, rest) => processNextF fuel s2 rest

/-- `processStart` including the tail `processFinish`/`processNext` taken
when posting the first read fails. -/
def processStartF (fuel : Nat) (s : Sys) (outs : List StartOutcome) :
    Sys × Bool × List StartOutcome :=
  match processStartCore s outs with
  | .inl r => r
  | .inr (s2, rest) =>
    match fuel with
    | 0 => (s2, false, rest)
    | fuel' + 1 => processNextF fuel' s2 rest

/-- `processNext` is exactly its guard followed by cursor advance and
`processStart`. -/
theorem processNextF_eq (fuel : Nat) (s : Sys) (outs : List StartOutcome) :
    processNextF fuel s outs =
      if curRunning s then (s, false, outs)
      else processStartF fuel (procAdvance s) outs := by
  cases fuel <;> rfl

/-- Completion verdict for a read on the process output pipe. -/
inductive ReadEvent
  | data (postOk : Bool) (finExit : Bool)
  | eof (finExit : Bool)
deriving DecidableEq, Repr

/-- Queue-relevant part of `processHandleReadComplete`: with data the output
is appended and the next read posted (`postOk`); on end-of-stream, or when
re-posting fails, the runner finishes the job and advances the queue. -/
def processHandleReadCompleteS (fuel : Nat) (s : Sys) (ev : ReadEvent)
    (outs : List StartOutcome) : Sys × List StartOutcome :=
  match ev with
  | .data postOk finExit =>
    if postOk then (s, outs)
    else
      let r := processNextF fuel (processFinish { s with readPending := false } finExit).1 outs
      (r.1, r.2.2)
  | .eof finExit =>
    let r := processNextF fuel (processFinish { s with readPending := false } finExit).1 outs
    (r.1, r.2.2)

/-- Queue-relevant part of `processAddFile`: append a job that is idle, or
`PST_FILE_NOT_FOUND` when the path does not exist, then call `processNext`. -/
def processAddFileS (fuel : Nat) (s : Sys) (pathOk : Bool)
    (outs : List StartOutcome) : Sys × List StartOutcome :=
  let s0 := { s with
    jobs := s.jobs ++ [if pathOk then ProcState.idle else ProcState.fileNotFound] }
  let r := processNextF fuel s0 outs
  (r.1, r.2.2)

/-- The orchestrator events that touch the queue. -/
inductive Event
  | add (pathOk : Bool) (outs : List StartOutcome)
  | read (ev : ReadEvent) (outs : List StartOutcome)

/-- One orchestrator step.  A read completion can only fire while a read is
pending. -/
def stepSys (s : Sys) : Event → Sys
  | .add pathOk outs => (processAddFileS (s.jobs.length + 1) s pathOk outs).1
  | .read ev outs =>
    if s.readPending then (processHandleReadCompleteS (s.jobs.length + 1) s ev outs).1
    else s

/-- Queue states reachable from the initial context. -/
inductive Reachable : Sys → Prop
  | init : Reachable Sys.init
  | step {s : Sys} (e : Event) : Reachable s → Reachable (stepSys s e)

/-- System invariant: while a read on the process pipe is pending, the
current item exists and is running. -/
def SysInv (s : Sys) : Prop :=
  s.readPending = true → ∃ i, s.proc = some i ∧ s.jobs[i]? = some ProcState.running

theorem procAdvance_jobs (s : Sys) : (procAdvance s).jobs = s.jobs := by
  unfold procAdvance
  cases findIdleFrom s.jobs s.vi <;> rfl

theorem procAdvance_readPending (s : Sys) : (procAdvance s).readPending = s.readPending := by
  unfold procAdvance
  cases findIdleFrom s.jobs s.vi <;> rfl

/-- Overwriting an idle or running slot never disturbs a terminal entry. -/
theorem jobs_set_stable (jobs : List ProcState) (j : Nat) (x : ProcState)
    (hj : jobs[j]? = some ProcState.idle ∨ jobs[j]? = some ProcState.running)
    (i : Nat) (st : ProcState) (hi : jobs[i]? = some st) (ht : st.isTerminal = true) :
    (jobs.set j x)[i]? = some st := by
  rcases eq_or_ne i j with rfl | hne
  · rcases hj with h | h <;>
      (rw [hi] at h; injection h with h; subst h; simp [ProcState.isTerminal] at ht)
  · rw [List.getElem?_set_ne (Ne.symm hne)]
    exact hi

/-- Writing a non-idle value never creates an idle entry. -/
theorem jobs_set_idle_origin (jobs : List ProcState) (j : Nat) (x : ProcState)
    (hx : x ≠ ProcState.idle) (i : Nat)
    (h : (jobs.set j x)[i]? = some ProcState.idle) : jobs[i]? = some ProcState.idle := by
  rcases eq_or_ne i j with rfl | hne
  · by_cases hlen : i < jobs.length
    · rw [List.getElem?_set_self hlen] at h
      injection h with h
      simp_all
    · rw [List.set_eq_of_length_le (by omega)] at h
      exact h
  · rw [List.getElem?_set_ne (Ne.symm hne)] at h
    exact h

theorem StartFail.toState_ne_idle (f : StartFail) : f.toState ≠ ProcState.idle := by
  cases f <;> simp [StartFail.toState]

theorem StartFail.toState_terminal (f : StartFail) : f.toState.isTerminal = true := by
  cases f <;> simp [StartFail.toState, ProcState.isTerminal]

/-- The queue state carried by either result of `processStartCore`. -/
def coreStateOf : (Sys × Bool × List StartOutcome) ⊕ (Sys × List StartOutcome) → Sys
  | .inl r => r.1
  | .inr r => r.1

theorem sysInv_of_not_pending (s : Sys) (h : s.readPending = false) : SysInv s := by
  intro hh
  rw [h] at hh
  cases hh

theorem processFinish_readPending (s : Sys) (e : Bool) :
    (processFinish s e).1.readPending = s.readPending := by
  unfold processFinish
  cases s.proc <;> [rfl; split_ifs <;> rfl]

/-- `processStart` preserves every terminal entry: it only writes the slot it
verified to be idle, and the `processFinish` it may run writes the slot it
has just set running. -/
theorem processStartCore_stable (s : Sys) (outs : List StartOutcome) (i : Nat) (st : ProcState)
    (hi : s.jobs[i]? = some st) (ht : st.isTerminal = true) :
    (coreStateOf (processStartCore s outs)).jobs[i]? = some st := by
  unfold processStartCore
  cases hp : s.proc with
  | none => simpa [coreStateOf]
  | some j =>
    dsimp only
    by_cases hidle : s.jobs[j]? = some ProcState.idle
    · rw [if_pos hidle]
      cases outs with
      | nil => simpa [coreStateOf]
      | cons o rest =>
        cases o with
        | failEarly f =>
          simpa [coreStateOf] using jobs_set_stable s.jobs j _ (Or.inl hidle) i st hi ht
        | success postOk finExit =>
          by_cases hpost : postOk
          · simp only [hpost, if_pos, coreStateOf]
            exact jobs_set_stable s.jobs j _ (Or.inl hidle) i st hi ht
          · simp only [hpost, Bool.false_eq_true, if_false, coreStateOf]
            have hstep := jobs_set_stable s.jobs j ProcState.running (Or.inl hidle) i st hi ht
            unfold processFinish
            simp only []
            by_cases hfin : finExit
            · simp only [hfin, if_pos, List.set_set]
              exact jobs_set_stable s.jobs j _ (Or.inl hidle) i st hi ht
            · simp only [hfin, Bool.false_eq_true, if_false, List.set_set]
              exact jobs_set_stable s.jobs j _ (Or.inl hidle) i st hi ht
    · simpa [coreStateOf, if_neg hidle]

/-- `processStart` never writes `PST_IDLE`: an idle entry in its result was
already idle. -/
theorem processStartCore_idle_origin (s : Sys) (outs : List StartOutcome) (i : Nat)
    (h : (coreStateOf (processStartCore s outs)).jobs[i]? = some ProcState.idle) :
    s.jobs[i]? = some ProcState.idle := by
  unfold processStartCore at h
  cases hp : s.proc with
  | none => rw [hp] at h; simpa [coreStateOf] using h
  | some j =>
    rw [hp] at h
    dsimp only at h
    by_cases hidle : s.jobs[j]? = some ProcState.idle
    · rw [if_pos hidle] at h
      cases outs with
      | nil => simpa [coreStateOf] using h
      | cons o rest =>
        cases o with
        | failEarly f =>
          simp only [coreStateOf] at h
          exact jobs_set_idle_origin s.jobs j _ (StartFail.toState_ne_idle f) i h
        | success postOk finExit =>
          by_cases hpost : postOk
          · simp only [hpost, if_pos, coreStateOf] at h
            exact jobs_set_idle_origin s.jobs j _ (by simp) i h
          · simp only [hpost, Bool.false_eq_true, if_false, coreStateOf] at h
            unfold processFinish at h
            simp only [] at h
            by_cases hfin : finExit
            · simp only [hfin, if_pos, List.set_set] at h
              exact jobs_set_idle_origin s.jobs j _ (by simp) i h
            · simp only [hfin, Bool.false_eq_true, if_false, List.set_set] at h
              exact jobs_set_idle_origin s.jobs j _ (by simp) i h
    · rw [if_neg hidle] at h
      simpa [coreStateOf] using h

/-- `processStart` preserves the read-pending invariant. -/
theorem processStartCore_inv (s : Sys) (outs : List StartOutcome) (hInv : SysInv s) :
    SysInv (coreStateOf (processStartCore s outs)) := by
  unfold processStartCore
  cases hp : s.proc with
  | none => simpa [coreStateOf] using hInv
  | some j =>
    dsimp only
    by_cases hidle : s.jobs[j]? = some ProcState.idle
    · rw [if_pos hidle]
      have hrp : s.readPending = false := by
        cases hb : s.readPending with
        | false => rfl
        | true =>
          obtain ⟨k, hk, hkr⟩ := hInv hb
          rw [hp] at hk
          injection hk with hk
          subst hk
          rw [hidle] at hkr
          injection hkr with hkr
          cases hkr
      have hjlen : j < s.jobs.length := (List.getElem?_eq_some_iff.mp hidle).1
      cases outs with
      | nil => simpa [coreStateOf] using hInv
      | cons o rest =>
        cases o with
        | failEarly f =>
          apply sysInv_of_not_pending
          simpa [coreStateOf] using hrp
        | success postOk finExit =>
          by_cases hpost : postOk
          · simp only [hpost, if_pos, coreStateOf]
            intro _
            refine ⟨j, by simp [hp], ?_⟩
            simpa using List.getElem?_set_self (l := s.jobs) (by simpa using hjlen)
          · simp only [hpost, Bool.false_eq_true, if_false, coreStateOf]
            apply sysInv_of_not_pending
            rw [processFinish_readPending]
            simpa using hrp
    · rw [if_neg hidle]
      simpa [coreStateOf] using hInv

/-- `processNext` preserves every terminal entry. -/
theorem processNextF_stable : ∀ (fuel : Nat) (s : Sys) (outs : List StartOutcome)
    (i : Nat) (st : ProcState), s.jobs[i]? = some st → st.isTerminal = true →
    (processNextF fuel s outs).1.jobs[i]? = some st := by
  intro fuel
  induction fuel with
  | zero =>
    intro s outs i st hi ht
    by_cases hrun : curRunning s
    · simpa [processNextF, hrun]
    · simp only [processNextF, hrun, Bool.false_eq_true, if_false]
      have hadv : (procAdvance s).jobs[i]? = some st := by rw [procAdvance_jobs]; exact hi
      have hcore := processStartCore_stable (procAdvance s) outs i st hadv ht
      cases hc : processStartCore (procAdvance s) outs with
      | inl r =>
        rw [hc] at hcore
        simpa [coreStateOf] using hcore
      | inr p =>
        rw [hc] at hcore
        cases p with
        | mk s2 rest => simpa [coreStateOf] using hcore
  | succ fuel ih =>
    intro s outs i st hi ht
    by_cases hrun : curRunning s
    · simpa [processNextF, hrun]
    · simp only [processNextF, hrun, Bool.false_eq_true, if_false]
      have hadv : (procAdvance s).jobs[i]? = some st := by rw [procAdvance_jobs]; exact hi
      have hcore := processStartCore_stable (procAdvance s) outs i st hadv ht
      cases hc : processStartCore (procAdvance s) outs with
      | inl r =>
        rw [hc] at hcore
        simpa [coreStateOf] using hcore
      | inr p =>
        rw [hc] at hcore
        cases p with
        | mk s2 rest =>
          exact ih s2 rest i st (by simpa [coreStateOf] using hcore) ht

/-- `processNext` never writes `PST_IDLE`. -/
theorem processNextF_idle_origin : ∀ (fuel : Nat) (s : Sys) (outs : List StartOutcome)
    (i : Nat), (processNextF fuel s outs).1.jobs[i]? = some ProcState.idle →
    s.jobs[i]? = some ProcState.idle := by
  intro fuel
  induction fuel with
  | zero =>
    intro s outs i h
    by_cases hrun : curRunning s
    · simpa [processNextF, hrun] using h
    · simp only [processNextF, hrun, Bool.false_eq_true, if_false] at h
      rw [← procAdvance_jobs s]
      cases hc : processStartCore (procAdvance s) outs with
      | inl r =>
        rw [hc] at h
        exact processStartCore_idle_origin _ outs i (by rw [hc]; simpa [coreStateOf] using h)
      | inr p =>
        rw [hc] at h
        cases p with
        | mk s2 rest =>
          exact processStartCore_idle_origin _ outs i (by rw [hc]; simpa [coreStateOf] using h)
  | succ fuel ih =>
    intro s outs i h
    by_cases hrun : curRunning s
    · simpa [processNextF, hrun] using h
    · simp only [processNextF, hrun, Bool.false_eq_true, if_false] at h
      rw [← procAdvance_jobs s]
      cases hc : processStartCore (procAdvance s) outs with
      | inl r =>
        rw [hc] at h
        exact processStartCore_idle_origin _ outs i (by rw [hc]; simpa [coreStateOf] using h)
      | inr p =>
        rw [hc] at h
        cases p with
        | mk s2 rest =>
          have := ih s2 rest i h
          exact processStartCore_idle_origin _ outs i (by rw [hc]; simpa [coreStateOf])

/-- `processNext` preserves the read-pending invariant. -/
theorem processNextF_inv : ∀ (fuel : Nat) (s : Sys) (outs : List StartOutcome),
    SysInv s → SysInv (processNextF fuel s outs).1 := by
  intro fuel
  induction fuel with
  | zero =>
    intro s outs hInv
    by_cases hrun : curRunning s
    · simpa [processNextF, hrun]
    · simp only [processNextF, hrun, Bool.false_eq_true, if_false]
      have hInv1 : SysInv (procAdvance s) := by
        intro hrp
        rw [procAdvance_readPending] at hrp
        obtain ⟨k, hk, hkr⟩ := hInv hrp
        exact absurd (by unfold curRunning; rw [hk]; simp [hkr]) hrun
      have hcore := processStartCore_inv (procAdvance s) outs hInv1
      cases hc : processStartCore (procAdvance s) outs with
      | inl r =>
        rw [hc] at hcore
        simpa [coreStateOf] using hcore
      | inr p =>
        rw [hc] at hcore
        cases p with
        | mk s2 rest => simpa [coreStateOf] using hcore
  | succ fuel ih =>
    intro s outs hInv
    by_cases hrun : curRunning s
    · simpa [processNextF, hrun]
    · simp only [processNextF, hrun, Bool.false_eq_true, if_false]
      have hInv1 : SysInv (procAdvance s) := by
        intro hrp
        rw [procAdvance_readPending] at hrp
        obtain ⟨k, hk, hkr⟩ := hInv hrp
        exact absurd (by unfold curRunning; rw [hk]; simp [hkr]) hrun
      have hcore := processStartCore_inv (procAdvance s) outs hInv1
      cases hc : processStartCore (procAdvance s) outs with
      | inl r =>
        rw [hc] at hcore
        simpa [coreStateOf] using hcore
      | inr p =>
        rw [hc] at hcore
        cases p with
        | mk s2 rest => exact ih s2 rest (by simpa [coreStateOf] using hcore)

/-- `processFinish` writes only the current item's slot, which its callers
guarantee to be idle or running. -/
theorem processFinish_stable (s : Sys) (e : Bool)
    (hj : ∀ j, s.proc = some j →
      s.jobs[j]? = some ProcState.idle ∨ s.jobs[j]? = some ProcState.running)
    (i : Nat) (st : ProcState) (hi : s.jobs[i]? = some st) (ht : st.isTerminal = true) :
    (processFinish s e).1.jobs[i]? = some st := by
  unfold processFinish
  cases hp : s.proc with
  | none => simpa
  | some j =>
    dsimp only
    by_cases hfin : e
    · simp only [hfin, if_pos]
      exact jobs_set_stable s.jobs j _ (hj j hp) i st hi ht
    · simp only [hfin, Bool.false_eq_true, if_false]
      exact jobs_set_stable s.jobs j _ (hj j hp) i st hi ht

/-- `processFinish` writes only `PST_OK` or `PST_FAIL`, never `PST_IDLE`. -/
theorem processFinish_idle_origin (s : Sys) (e : Bool) (i : Nat)
    (h : (processFinish s e).1.jobs[i]? = some ProcState.idle) :
    s.jobs[i]? = some ProcState.idle := by
  unfold processFinish at h
  cases hp : s.proc with
  | none => rw [hp] at h; simpa using h
  | some j =>
    rw [hp] at h
    dsimp only at h
    by_cases hfin : e
    · simp only [hfin, if_pos] at h
      exact jobs_set_idle_origin s.jobs j _ (by simp) i h
    · simp only [hfin, Bool.false_eq_true, if_false] at h
      exact jobs_set_idle_origin s.jobs j _ (by simp) i h

/-- One orchestrator event preserves every terminal entry. -/
theorem stepSys_stable (s : Sys) (e : Event) (hInv : SysInv s)
    (i : Nat) (st : ProcState) (hi : s.jobs[i]? = some st) (ht : st.isTerminal = true) :
    (stepSys s e).jobs[i]? = some st := by
  have hlen : i < s.jobs.length := (List.getElem?_eq_some_iff.mp hi).1
  cases e with
  | add pathOk outs =>
    simp only [stepSys, processAddFileS]
    apply processNextF_stable _ _ _ i st _ ht
    rw [List.getElem?_append_left hlen]
    exact hi
  | read ev outs =>
    by_cases hrp : s.readPending
    · have hfin : ∀ (fe : Bool),
          (processFinish { s with readPending := false } fe).1.jobs[i]? = some st := by
        intro fe
        refine processFinish_stable { s with readPending := false } fe ?_ i st hi ht
        intro j hj
        obtain ⟨k, hk, hkr⟩ := hInv (by simpa using hrp)
        right
        have : j = k := by
          simp only at hj
          rw [hj] at hk
          injection hk
        rw [this]
        exact hkr
      simp only [stepSys, hrp, if_pos]
      cases ev with
      | data postOk finExit =>
        by_cases hpost : postOk
        · simpa [processHandleReadCompleteS, hpost]
        · simp only [processHandleReadCompleteS, hpost, Bool.false_eq_true, if_false]
          exact processNextF_stable _ _ _ i st (hfin finExit) ht
      | eof finExit =>
        simp only [processHandleReadCompleteS]
        exact processNextF_stable _ _ _ i st (hfin finExit) ht
    · simpa [stepSys, hrp]

/-- One orchestrator event never writes `PST_IDLE` into an existing slot. -/
theorem stepSys_idle_origin (s : Sys) (e : Event) (i : Nat) (hlen : i < s.jobs.length)
    (h : (stepSys s e).jobs[i]? = some ProcState.idle) :
    s.jobs[i]? = some ProcState.idle := by
  cases e with
  | add pathOk outs =>
    simp only [stepSys, processAddFileS] at h
    have := processNextF_idle_origin _ _ _ i h
    rw [List.getElem?_append_left hlen] at this
    exact this
  | read ev outs =>
    by_cases hrp : s.readPending
    · simp only [stepSys, hrp, if_pos] at h
      cases ev with
      | data postOk finExit =>
        by_cases hpost : postOk
        · simpa [processHandleReadCompleteS, hpost] using h
        · simp only [processHandleReadCompleteS, hpost, Bool.false_eq_true, if_false] at h
          have := processNextF_idle_origin _ _ _ i h
          simpa using processFinish_idle_origin _ _ i this
      | eof finExit =>
        simp only [processHandleReadCompleteS] at h
        have := processNextF_idle_origin _ _ _ i h
        simpa using processFinish_idle_origin _ _ i this
    · simpa [stepSys, hrp] using h

/-- One orchestrator event preserves the read-pending invariant. -/
theorem stepSys_inv (s : Sys) (e : Event) (hInv : SysInv s) : SysInv (stepSys s e) := by
  cases e with
  | add pathOk outs =>
    simp only [stepSys, processAddFileS]
    apply processNextF_inv
    intro hrp
    obtain ⟨k, hk, hkr⟩ := hInv (by simpa using hrp)
    refine ⟨k, by simpa using hk, ?_⟩
    have hklen : k < s.jobs.length := (List.getElem?_eq_some_iff.mp hkr).1
    simpa [List.getElem?_append_left hklen] using hkr
  | read ev outs =>
    by_cases hrp : s.readPending
    · simp only [stepSys, hrp, if_pos]
      have hinv0 : ∀ (fe : Bool),
          SysInv (processFinish { s with readPending := false } fe).1 := by
        intro fe
        apply sysInv_of_not_pending
        rw [processFinish_readPending]
      cases ev with
      | data postOk finExit =>
        by_cases hpost : postOk
        · simpa [processHandleReadCompleteS, hpost]
        · simp only [processHandleReadCompleteS, hpost, Bool.false_eq_true, if_false]
          exact processNextF_inv _ _ _ (hinv0 finExit)
      | eof finExit =>
        simp only [processHandleReadCompleteS]
        exact processNextF_inv _ _ _ (hinv0 finExit)
    · simpa [stepSys, hrp]

/-- The read-pending invariant holds in every reachable state. -/
theorem reachable_inv : ∀ (s : Sys), Reachable s → SysInv s := by
  intro s h
  induction h with
  | init => exact sysInv_of_not_pending _ rfl
  | step e _ ih => exact stepSys_inv _ e ih

/-- Terminal entries persist over any sequence of events from a reachable
state. -/
theorem steps_stable : ∀ (evs : List Event) (s : Sys), Reachable s →
    ∀ (i : Nat) (st : ProcState), s.jobs[i]? = some st → st.isTerminal = true →
    (List.foldl stepSys s evs).jobs[i]? = some st := by
  intro evs
  induction evs with
  | nil => intro s _ i st hi _; exact hi
  | cons e evs ih =>
    intro s hr i st hi ht
    simp only [List.foldl_cons]
    exact ih (stepSys s e) (Reachable.step e hr) i st
      (stepSys_stable s e (reachable_inv s hr) i st hi ht) ht

theorem findIdleGo_spec : ∀ (jobs : List ProcState) (n start i : Nat),
    findIdleGo jobs n start = some i →
    start ≤ i ∧ jobs[i]? = some ProcState.idle ∧
      ∀ k, start ≤ k → k < i → jobs[k]? ≠ some ProcState.idle := by
  intro jobs n
  induction n with
  | zero => intro start i h; simp [findIdleGo] at h
  | succ n ih =>
    intro start i h
    unfold findIdleGo at h
    by_cases hidle : jobs[start]? = some ProcState.idle
    · rw [if_pos hidle] at h
      injection h with h
      subst h
      exact ⟨le_rfl, hidle, fun k hk1 hk2 => absurd hk1 (by omega)⟩
    · rw [if_neg hidle] at h
      obtain ⟨h1, h2, h3⟩ := ih (start + 1) i h
      refine ⟨by omega, h2, ?_⟩
      intro k hk1 hk2
      rcases Nat.lt_or_ge k (start + 1) with hk | hk
      · have hks : k = start := by omega
        rw [hks]
        exact hidle
      · exact h3 k hk hk2

/-- The scan of `processNext` finds exactly the first idle job at or after
the cursor. -/
theorem findIdleFrom_spec (jobs : List ProcState) (start i : Nat)
    (h : findIdleFrom jobs start = some i) :
    start ≤ i ∧ jobs[i]? = some ProcState.idle ∧
      ∀ k, start ≤ k → k < i → jobs[k]? ≠ some ProcState.idle :=
  findIdleGo_spec jobs _ start i h

theorem findIdleGo_none_spec : ∀ (jobs : List ProcState) (n start : Nat),
    findIdleGo jobs n start = none →
    ∀ k, start ≤ k → k < start + n → jobs[k]? ≠ some ProcState.idle := by
  intro jobs n
  induction n with
  | zero => intro start _ k hk1 hk2; omega
  | succ n ih =>
    intro start h k hk1 hk2
    unfold findIdleGo at h
    by_cases hidle : jobs[start]? = some ProcState.idle
    · rw [if_pos hidle] at h
      cases h
    · rw [if_neg hidle] at h
      rcases Nat.lt_or_ge k (start + 1) with hk | hk
      · have hks : k = start := by omega
        rw [hks]
        exact hidle
      · exact ih (start + 1) h k hk (by omega)

/-- When the scan finds nothing, no job at or after the cursor is idle. -/
theorem findIdleFrom_none_spec (jobs : List ProcState) (start : Nat)
    (h : findIdleFrom jobs start = none) :
    ∀ k, start ≤ k → jobs[k]? ≠ some ProcState.idle := by
  intro k hk
  by_cases hkl : k < jobs.length
  · exact findIdleGo_none_spec jobs _ start h k hk (by omega)
  · rw [List.getElem?_eq_none (by omega)]
    simp

/-- `processNext` is a no-op returning `false` while the current job is
running. -/
theorem processNextF_noop_running (fuel : Nat) (s : Sys) (outs : List StartOutcome)
    (h : curRunning s = true) : processNextF fuel s outs = (s, false, outs) := by
  cases fuel <;> simp [processNextF, h]

/-- When no job is running and an idle job remains, `processNext` starts the
first one at or after the cursor: it becomes the current item, the cursor
moves to it, its state becomes running, and a read is pending. -/
theorem processNextF_starts_first_idle (fuel : Nat) (s : Sys) (fe : Bool)
    (rest : List StartOutcome) (i : Nat)
    (hrun : curRunning s = false)
    (hfind : findIdleFrom s.jobs s.vi = some i) :
    processNextF fuel s (.success true fe :: rest) =
      ((⟨s.jobs.set i .running, i, some i, true⟩ : Sys), true, rest) := by
  have hidle : s.jobs[i]? = some ProcState.idle := (findIdleFrom_spec _ _ _ hfind).2.1
  rw [processNextF_eq, if_neg (by simp [hrun])]
  unfold procAdvance
  rw [hfind]
  dsimp only
  unfold processStartF processStartCore
  dsimp only
  rw [if_pos (by simpa using hidle)]
  rfl

/-- **C2.** At most one job runs at a time: `processNext` is a no-op
returning `false` while the current job is running; the scan selects exactly
the first idle job in FIFO order from the cursor (and finds nothing only
when no idle job remains at or after the cursor); and on the completion
event that puts the running job into a terminal state, `processNext` is
invoked again and starts that first remaining idle job, if one exists. -/
theorem C2_advance_at_most_one_running :
    (∀ (fuel : Nat) (s : Sys) (outs : List StartOutcome),
      curRunning s = true → processNextF fuel s outs = (s, false, outs))
    ∧ (∀ (fuel : Nat) (s : Sys) (fe : Bool) (rest : List StartOutcome) (i : Nat),
      curRunning s = false → findIdleFrom s.jobs s.vi = some i →
      processNextF fuel s (.success true fe :: rest) =
        ((⟨s.jobs.set i .running, i, some i, true⟩ : Sys), true, rest))
    ∧ (∀ (jobs : List ProcState) (start i : Nat), findIdleFrom jobs start = some i →
      start ≤ i ∧ jobs[i]? = some ProcState.idle ∧
        ∀ k, start ≤ k → k < i → jobs[k]? ≠ some ProcState.idle)
    ∧ (∀ (jobs : List ProcState) (start : Nat), findIdleFrom jobs start = none →
      ∀ k, start ≤ k → jobs[k]? ≠ some ProcState.idle)
    ∧ (∀ (s : Sys) (j i : Nat) (fe : Bool) (rest : List StartOutcome),
      s.readPending = true → s.proc = some j → s.jobs[j]? = some ProcState.running →
      findIdleFrom (s.jobs.set j .ok) s.vi = some i →
      stepSys s (.read (.eof true) (.success true fe :: rest)) =
        ⟨(s.jobs.set j .ok).set i .running, i, some i, true⟩) := by
  refine ⟨processNextF_noop_running, processNextF_starts_first_idle,
    findIdleFrom_spec, findIdleFrom_none_spec, ?_⟩
  intro s j i fe rest hrp hproc hrun hfind
  simp only [stepSys, hrp, if_pos, processHandleReadCompleteS]
  have hfin : processFinish { s with readPending := false } true =
      ((⟨s.jobs.set j .ok, s.vi, none, false⟩ : Sys), true) := by
    unfold processFinish
    dsimp only
    rw [hproc]
    rfl
  rw [hfin]
  dsimp only
  rw [processNextF_starts_first_idle _ _ fe rest i (by rfl) (by simpa using hfind)]

/-- Closed instance of `C2_advance_at_most_one_running`: with `[running]`
the advance is refused; after that running job exits with code zero the
idle job at index 1 is started. -/
theorem C2_advance_at_most_one_running_witness :
    processNextF 1 (⟨[ProcState.running], 0, some 0, false⟩ : Sys) [] =
      ((⟨[ProcState.running], 0, some 0, false⟩ : Sys), false, [])
    ∧ stepSys (⟨[ProcState.running, ProcState.idle], 0, some 0, true⟩ : Sys)
        (.read (.eof true) [.success true true]) =
      (⟨[ProcState.ok, ProcState.running], 1, some 1, true⟩ : Sys) := by
  constructor
  · exact C2_advance_at_most_one_running.1 1 _ [] (by decide)
  · have h := C2_advance_at_most_one_running.2.2.2.2
      (⟨[ProcState.running, ProcState.idle], 0, some 0, true⟩ : Sys) 0 1 true []
      (by decide) (by decide) (by decide) (by decide)
    exact h.trans (by decide)

/-- **C6.** The job state machine: idle and running are the only
non-terminal states; at enqueue time a job is assigned exactly idle or the
terminal `file_not_found` (and an enqueued `file_not_found` survives the
immediately triggered advance); no reachable-state operation moves a job out
of a terminal state, over one event or any event sequence (so a job reaches
at most one terminal state); and every observed state change leaves an idle
or running state and enters running or a terminal state. -/
theorem C6_state_machine :
    (∀ (st : ProcState), st.isTerminal = false ↔ (st = .idle ∨ st = .running))
    ∧ (∀ (s : Sys) (pathOk : Bool),
        (s.jobs ++ [if pathOk then ProcState.idle else ProcState.fileNotFound])[s.jobs.length]? =
          some (if pathOk then ProcState.idle else ProcState.fileNotFound))
    ∧ (∀ (s : Sys) (outs : List StartOutcome),
        (stepSys s (.add false outs)).jobs[s.jobs.length]? = some ProcState.fileNotFound)
    ∧ (∀ (s : Sys), Reachable s → ∀ (e : Event) (i : Nat) (st : ProcState),
        s.jobs[i]? = some st → st.isTerminal = true → (stepSys s e).jobs[i]? = some st)
    ∧ (∀ (s : Sys), Reachable s → ∀ (i : Nat) (st : ProcState),
        s.jobs[i]? = some st → st.isTerminal = true →
        ∀ (evs : List Event), (List.foldl stepSys s evs).jobs[i]? = some st)
    ∧ (∀ (s : Sys), Reachable s → ∀ (e : Event) (i : Nat) (old nw : ProcState),
        s.jobs[i]? = some old → (stepSys s e).jobs[i]? = some nw → old ≠ nw →
        (old = .idle ∨ old = .running) ∧ (nw = .running ∨ nw.isTerminal = true)) := by
  refine ⟨?_, ?_, ?_, ?_, ?_, ?_⟩
  · intro st
    cases st <;> simp [ProcState.isTerminal]
  · intro s pathOk
    simp
  · intro s outs
    simp only [stepSys, processAddFileS]
    apply processNextF_stable _ _ _ s.jobs.length ProcState.fileNotFound _ rfl
    simp
  · intro s hr e i st hi ht
    exact stepSys_stable s e (reachable_inv s hr) i st hi ht
  · intro s hr i st hi ht evs
    exact steps_stable evs s hr i st hi ht
  · intro s hr e i old nw hold hnew hne
    constructor
    · by_cases ht : old.isTerminal = true
      · exfalso
        have hst := stepSys_stable s e (reachable_inv s hr) i old hold ht
        rw [hst] at hnew
        injection hnew with hnew
        exact hne hnew
      · cases old <;> simp [ProcState.isTerminal] at ht ⊢
    · by_cases hni : nw = ProcState.idle
      · exfalso
        subst hni
        have hlen : i < s.jobs.length := (List.getElem?_eq_some_iff.mp hold).1
        have horigin := stepSys_idle_origin s e i hlen hnew
        rw [hold] at horigin
        injection horigin with horigin
        exact hne horigin
      · cases nw <;> simp [ProcState.isTerminal] at hni ⊢

/-- Closed instance of `C6_state_machine`: the `file_not_found` job enqueued
first survives a later enqueue-and-advance event. -/
theorem C6_state_machine_witness :
    (stepSys (stepSys Sys.init (Event.add false [])) (Event.add true [])).jobs[0]? =
      some ProcState.fileNotFound := by
  exact C6_state_machine.2.2.2.1 (stepSys Sys.init (Event.add false []))
    (Reachable.step _ Reachable.init) (Event.add true []) 0 ProcState.fileNotFound
    (by decide) (by decide)

/-! ## Credential store (`iniConfigGetPin`, `processStart` lines 372-393,
`hto_addKey`/`hto_getKey`, `rcIniConfigBaseCmp`) -/

/-- `tIniConfigBase` certificate identity: certId, cardName, cardReader; a
field is `none` when the corresponding string pointer is `NULL`.  Strings
are NUL-free UTF-16 code-unit lists. -/
structure CertIdentity where
  certId : Option (List Nat)
  cardName : Option (List Nat)
  cardReader : Option (List Nat)
deriving DecidableEq, Repr

/-- `wcscmp` on NUL-free code-unit lists (sign only). -/
def wcscmp : List Nat → List Nat → Int
  | [], [] => 0
  | [], _ :: _ => -1
  | _ :: _, [] => 1
  | a :: as, b :: bs => if a < b then -1 else if b < a then 1 else wcscmp as bs

/-- `_CMP_PTR` from `rcIniConfigBaseCmp`: a `NULL` left side yields
`INT_MAX`, a `NULL` right side `INT_MIN`, both `NULL` compare equal
(`l == r`), otherwise `wcscmp` decides. -/
def cmpField (l r : Option (List Nat)) : Int :=
  match l, r with
  | none, none => 0
  | none, some _ => 2147483647
  | some _, none => -2147483648
  | some a, some b => wcscmp a b

/-- `rcIniConfigBaseCmp`: compare certId, cardName, cardReader in order,
stopping at the first difference. -/
def rcIniConfigBaseCmp (lhs rhs : CertIdentity) : Int :=
  if cmpField lhs.certId rhs.certId ≠ 0 then cmpField lhs.certId rhs.certId
  else if cmpField lhs.cardName rhs.cardName ≠ 0 then cmpField lhs.cardName rhs.cardName
  else cmpField lhs.cardReader rhs.cardReader

/-- An encrypted PIN blob.  DPAPI (`CryptProtectData`/`CryptUnprotectData`)
is an external OS primitive; modelled from the spec ("re-encrypt the PIN
with an OS-managed secret") as an opaque invertible wrapper around the
protected bytes — here the raw UTF-16 PIN code units including the
terminating NUL, exactly what `iniConfigGetPin` protects
(`cbData = rawPinLen * 2`, "including null-termination character"). -/
structure PinBlob where
  data : List Nat
deriving DecidableEq, Repr

/-- The credential cache `ctx->h`: `tRcIniConfigBase` keys to `DATA_BLOB`
values (`none` = the zeroed blob).  The hash table sends equal keys to one
bucket and compares with `rcIniConfigBaseCmp` inside it, so a single list
searched by `rcIniConfigBaseCmp` models lookup faithfully. -/
abbrev PinCache := List (CertIdentity × Option PinBlob)

/-- `hto_getKey`: the first entry whose key compares equal. -/
def cacheGet (c : PinCache) (k : CertIdentity) : Option (Option PinBlob) :=
  match c with
  | [] => none
  | (q, v) :: rest => if rcIniConfigBaseCmp q k = 0 then some v else cacheGet rest k

/-- `hto_addKey`: return the existing entry's value, or add a
zero-initialised entry (`calloc`) and return it. -/
def cacheAdd (c : PinCache) (k : CertIdentity) : Option PinBlob × PinCache :=
  match cacheGet c k with
  | some v => (v, c)
  | none => (none, c ++ [(k, none)])

/-- Writing through the entry pointer returned by `hto_addKey`: the entry's
blob is updated in place. -/
def cacheSet (c : PinCache) (k : CertIdentity) (v : Option PinBlob) : PinCache :=
  match c with
  | [] => []
  | (q, v') :: rest =>
    if rcIniConfigBaseCmp q k = 0 then (q, v) :: rest else (q, v') :: cacheSet rest k v

/-- One `iniConfigGetPin` round as seen from the orchestrator: outcomes of
the external card/credential primitives.  `promptPin` is the PIN the user
enters, without its terminating NUL (`none` when the prompt fails or is
cancelled). -/
structure PinEnv where
  cardOk : Bool
  promptPin : Option (List Nat)
  unpackOk : Bool
  validateOk : Bool
  protectOk : Bool
deriving DecidableEq, Repr

/-- `iniConfigGetPin`: the C function's boolean result, the blob written
through `pin` (`none` when the output `DATA_BLOB` stays zeroed), and whether
the credential prompt was shown.  `res` is set to `true` as soon as the
prompt returns — BEFORE unpack/validation — so a failed validation still
returns `true` with the blob left empty. -/
def iniConfigGetPinM (env : PinEnv) : Bool × Option PinBlob × Bool :=
  if ¬ env.cardOk then (false, none, false)
  else
    match env.promptPin with
    | none => (false, none, true)
    | some pin =>
      if ¬ env.unpackOk then (true, none, true)
      else if ¬ env.validateOk then (true, none, true)
      else if ¬ env.protectOk then (true, none, true)
      else (true, some ⟨pin ++ [0]⟩, true)

/-- Outcome of the PIN section of `processStart` (lines 372-393). -/
inductive PinOutcome
  | okPin (pin : List Nat)
  | pinMissing
  | pinWrong
deriving DecidableEq, Repr

/-- The `newState` the job receives when the PIN section of `processStart`
fails (`goto onError`). -/
def pinOutcomeState : PinOutcome → Option ProcState
  | .okPin _ => none
  | .pinMissing => some .pinMissing
  | .pinWrong => some .pinWrong

/-- The decrypt check of `processStart` line 391: the decrypted PIN must be
non-empty (`cbData >= 2`) and NUL-terminated. -/
def blobDecodes (b : PinBlob) : Bool :=
  decide (b.data ≠ []) && decide (b.data.getLast? = some 0)

/-- `processStart` lines 372-393: get-or-create the cache entry for the
job's identity (`hto_addKey`); when the entry's blob is non-empty, decrypt
it and use it without any prompt; otherwise run `iniConfigGetPin` (which
stores the validated encrypted blob through the entry pointer) and decrypt
what it stored.  Returns the outcome, the updated cache, and whether the
interactive prompt ran. -/
def processGetPin (cache : PinCache) (k : CertIdentity) (env : PinEnv) :
    PinOutcome × PinCache × Bool :=
  let a := cacheAdd cache k
  match a.1 with
  | some b =>
    if blobDecodes b then (.okPin b.data, a.2, false)
    else (.pinWrong, a.2, false)
  | none =>
    let g := iniConfigGetPinM env
    if ¬ g.1 then (.pinMissing, a.2, g.2.2)
    else
      match g.2.1 with
      | none => (.pinWrong, a.2, g.2.2)
      | some b =>
        let c2 := cacheSet a.2 k (some b)
        if blobDecodes b then (.okPin b.data, c2, g.2.2)
        else (.pinWrong, c2, g.2.2)

theorem wcscmp_eq_zero_iff : ∀ (a b : List Nat), wcscmp a b = 0 ↔ a = b
  | [], [] => by simp [wcscmp]
  | [], _ :: _ => by simp [wcscmp]
  | _ :: _, [] => by simp [wcscmp]
  | a :: as, b :: bs => by
    by_cases hab : a < b
    · simp [wcscmp, hab]
      omega
    · by_cases hba : b < a
      · simp [wcscmp, hab, hba]
        omega
      · have heq : a = b := by omega
        simp [wcscmp, hab, hba, heq, wcscmp_eq_zero_iff as bs]

theorem cmpField_eq_zero_iff (l r : Option (List Nat)) : cmpField l r = 0 ↔ l = r := by
  cases l <;> cases r <;> simp [cmpField, wcscmp_eq_zero_iff]

/-- Two identities compare equal under `rcIniConfigBaseCmp` exactly when all
three fields match, including both being absent. -/
theorem rcIniConfigBaseCmp_eq_zero_iff (a b : CertIdentity) :
    rcIniConfigBaseCmp a b = 0 ↔ a = b := by
  unfold rcIniConfigBaseCmp
  by_cases h1 : cmpField a.certId b.certId ≠ 0
  · rw [if_pos h1]
    constructor
    · intro h
      exact absurd h h1
    · intro h
      subst h
      exact absurd (by rw [cmpField_eq_zero_iff]) h1
  · rw [if_neg h1]
    rw [not_not, cmpField_eq_zero_iff] at h1
    by_cases h2 : cmpField a.cardName b.cardName ≠ 0
    · rw [if_pos h2]
      constructor
      · intro h
        exact absurd h h2
      · intro h
        subst h
        exact absurd (by rw [cmpField_eq_zero_iff]) h2
    · rw [if_neg h2]
      rw [not_not, cmpField_eq_zero_iff] at h2
      rw [cmpField_eq_zero_iff]
      constructor
      · intro h3
        cases a
        cases b
        simp_all
      · intro h3
        rw [h3]

theorem rcIniConfigBaseCmp_refl (k : CertIdentity) : rcIniConfigBaseCmp k k = 0 :=
  (rcIniConfigBaseCmp_eq_zero_iff k k).mpr rfl

/-- The entry returned by `hto_addKey` is the one `hto_getKey` then finds. -/
theorem cacheAdd_get (c : PinCache) (k : CertIdentity) :
    cacheGet (cacheAdd c k).2 k = some (cacheAdd c k).1 := by
  unfold cacheAdd
  cases hg : cacheGet c k with
  | some v => simpa
  | none =>
    dsimp only
    induction c with
    | nil => simp [cacheGet, rcIniConfigBaseCmp_refl]
    | cons e rest ih =>
      cases e with
      | mk q v =>
        unfold cacheGet at hg ⊢
        by_cases hq : rcIniConfigBaseCmp q k = 0
        · rw [if_pos hq] at hg
          cases hg
        · rw [if_neg hq] at hg
          simpa [hq] using ih hg

/-- In-place update through the `hto_addKey` pointer: a later lookup of the
same key sees the new value when the entry exists. -/
theorem cacheSet_get (c : PinCache) (k : CertIdentity) (v v0 : Option PinBlob)
    (h : cacheGet c k = some v0) : cacheGet (cacheSet c k v) k = some v := by
  induction c with
  | nil => simp [cacheGet] at h
  | cons e rest ih =>
    cases e with
    | mk q v' =>
      unfold cacheGet at h
      by_cases hq : rcIniConfigBaseCmp q k = 0
      · unfold cacheSet
        rw [if_pos hq]
        simp [cacheGet, hq]
      · rw [if_neg hq] at h
        unfold cacheSet
        rw [if_neg hq]
        simpa [cacheGet, hq] using ih h

theorem cacheAdd_of_get_some (c : PinCache) (k : CertIdentity) (v : Option PinBlob)
    (h : cacheGet c k = some v) : cacheAdd c k = (v, c) := by
  unfold cacheAdd
  rw [h]

/-- Once the credential prompt is reachable (card present, prompt not
suppressed by a cached blob), `iniConfigGetPin` shows it regardless of how
unpack/validation/encryption turn out. -/
theorem iniConfigGetPinM_prompted (env : PinEnv) (pin : List Nat)
    (hc : env.cardOk = true) (hp : env.promptPin = some pin) :
    (iniConfigGetPinM env).2.2 = true := by
  unfold iniConfigGetPinM
  rw [hc, hp]
  simp only [not_true, if_false]
  split_ifs <;> rfl

/-- With an empty cache entry, the PIN section's prompt activity is exactly
`iniConfigGetPin`'s. -/
theorem processGetPin_prompted_of_empty (c : PinCache) (k : CertIdentity) (env : PinEnv)
    (he : (cacheAdd c k).1 = none) :
    (processGetPin c k env).2.2 = (iniConfigGetPinM env).2.2 := by
  unfold processGetPin
  simp only [he]
  by_cases h1 : (iniConfigGetPinM env).1
  · simp only [h1, not_true, if_false]
    cases hgb : (iniConfigGetPinM env).2.1 with
    | none => rfl
    | some b => by_cases hd : blobDecodes b <;> simp [hd]
  · simp [h1]

/-- A successful PIN lookup leaves (or finds) a decodable blob for the
identity in the cache. -/
theorem processGetPin_ok_cached (cache : PinCache) (k : CertIdentity) (env : PinEnv)
    (p : List Nat) (h : (processGetPin cache k env).1 = .okPin p) :
    cacheGet (processGetPin cache k env).2.1 k = some (some ⟨p⟩)
    ∧ blobDecodes ⟨p⟩ = true := by
  unfold processGetPin at h ⊢
  dsimp only at h ⊢
  cases ha : (cacheAdd cache k).1 with
  | some b =>
    rw [ha] at h
    dsimp only at h ⊢
    by_cases hd : blobDecodes b
    · rw [if_pos hd] at h ⊢
      dsimp only at h ⊢
      injection h with h
      have hb : b = ⟨p⟩ := by cases b; simpa using h
      subst hb
      have hget := cacheAdd_get cache k
      rw [ha] at hget
      exact ⟨hget, hd⟩
    · rw [if_neg hd] at h
      cases h
  | none =>
    rw [ha] at h
    dsimp only at h ⊢
    by_cases h1 : (iniConfigGetPinM env).1
    · rw [if_neg (by simp [h1])] at h ⊢
      cases hgb : (iniConfigGetPinM env).2.1 with
      | none =>
        rw [hgb] at h
        dsimp only at h
        cases h
      | some b =>
        rw [hgb] at h
        dsimp only at h ⊢
        by_cases hd : blobDecodes b
        · rw [if_pos hd] at h ⊢
          dsimp only at h ⊢
          injection h with h
          have hb : b = ⟨p⟩ := by cases b; simpa using h
          subst hb
          have hget := cacheAdd_get cache k
          rw [ha] at hget
          exact ⟨cacheSet_get _ k (some ⟨p⟩) none hget, hd⟩
        · rw [if_neg hd] at h
          dsimp only at h
          cases h
    · rw [if_pos (by simp [h1])] at h
      dsimp only at h
      cases h

/-- **C1.** For every certificate identity, once a lookup returns a
plaintext PIN (after validating and storing the encrypted blob keyed by the
identity, or after decrypting an already-stored blob), every later lookup
with an equal identity finds the entry, decrypts the cached blob, and
returns the same plaintext PIN with no interactive prompt and no cache
change — so two successive lookups prompt at most once. -/
theorem C1_pin_prompt_at_most_once (cache : PinCache) (k : CertIdentity) (env : PinEnv)
    (p : List Nat) (h : (processGetPin cache k env).1 = .okPin p) :
    cacheGet (processGetPin cache k env).2.1 k = some (some ⟨p⟩)
    ∧ ∀ (env2 : PinEnv),
        processGetPin (processGetPin cache k env).2.1 k env2 =
          (.okPin p, (processGetPin cache k env).2.1, false) := by
  obtain ⟨hget, hdec⟩ := processGetPin_ok_cached cache k env p h
  refine ⟨hget, ?_⟩
  intro env2
  set c1 := (processGetPin cache k env).2.1 with hc1
  unfold processGetPin
  dsimp only
  rw [cacheAdd_of_get_some c1 k _ hget]
  dsimp only
  rw [if_pos hdec]

/-- Closed instance of `C1_pin_prompt_at_most_once` for the identity
`(C1, CA, R1)` and the PIN `1234`. -/
theorem C1_pin_prompt_at_most_once_witness :
    cacheGet
        (processGetPin [] ⟨some [67, 49], some [67, 65], some [82, 49]⟩
          ⟨true, some [49, 50, 51, 52], true, true, true⟩).2.1
        ⟨some [67, 49], some [67, 65], some [82, 49]⟩ = some (some ⟨[49, 50, 51, 52, 0]⟩)
    ∧ processGetPin
        (processGetPin [] ⟨some [67, 49], some [67, 65], some [82, 49]⟩
          ⟨true, some [49, 50, 51, 52], true, true, true⟩).2.1
        ⟨some [67, 49], some [67, 65], some [82, 49]⟩
        ⟨true, some [49, 50, 51, 52], true, true, true⟩ =
      (.okPin [49, 50, 51, 52, 0],
        (processGetPin [] ⟨some [67, 49], some [67, 65], some [82, 49]⟩
          ⟨true, some [49, 50, 51, 52], true, true, true⟩).2.1, false) := by
  have h := C1_pin_prompt_at_most_once [] ⟨some [67, 49], some [67, 65], some [82, 49]⟩
    ⟨true, some [49, 50, 51, 52], true, true, true⟩ [49, 50, 51, 52, 0] (by decide)
  exact ⟨h.1, h.2 _⟩

/-- **C4.** When the prompt runs and the entered PIN fails provider
validation, the PIN section ends in `pin_wrong` (the job's terminal state),
the cache entry for the identity keeps an empty blob, and a later lookup
with an equal identity shows the prompt again instead of reusing the
rejected value. -/
theorem C4_wrong_pin_not_cached (cache : PinCache) (k : CertIdentity) (env : PinEnv)
    (pin : List Nat)
    (hentry : (cacheAdd cache k).1 = none)
    (hcard : env.cardOk = true)
    (hprompt : env.promptPin = some pin)
    (hunpack : env.unpackOk = true)
    (hvalid : env.validateOk = false) :
    (processGetPin cache k env).1 = .pinWrong
    ∧ pinOutcomeState (processGetPin cache k env).1 = some ProcState.pinWrong
    ∧ (processGetPin cache k env).2.2 = true
    ∧ cacheGet (processGetPin cache k env).2.1 k = some none
    ∧ ∀ (env2 : PinEnv) (pin2 : List Nat), env2.cardOk = true → env2.promptPin = some pin2 →
        (processGetPin (processGetPin cache k env).2.1 k env2).2.2 = true := by
  have hgp : iniConfigGetPinM env = (true, none, true) := by
    unfold iniConfigGetPinM
    rw [hcard, hprompt, hunpack, hvalid]
    simp
  have hmain : processGetPin cache k env = (.pinWrong, (cacheAdd cache k).2, true) := by
    unfold processGetPin
    dsimp only
    rw [hentry, hgp]
    simp
  have hget : cacheGet (cacheAdd cache k).2 k = some none := by
    have := cacheAdd_get cache k
    rw [hentry] at this
    exact this
  refine ⟨by rw [hmain], by rw [hmain]; rfl, by rw [hmain], by rw [hmain]; exact hget, ?_⟩
  intro env2 pin2 hc2 hp2
  rw [hmain]
  rw [processGetPin_prompted_of_empty _ k env2 (by rw [cacheAdd_of_get_some _ k none hget])]
  exact iniConfigGetPinM_prompted env2 pin2 hc2 hp2

/-- Closed instance of `C4_wrong_pin_not_cached`: the rejected PIN `1234` is
not cached and the follow-up lookup prompts again. -/
theorem C4_wrong_pin_not_cached_witness :
    (processGetPin [] ⟨some [67, 49], some [67, 65], some [82, 49]⟩
        ⟨true, some [49, 50, 51, 52], true, false, true⟩).1 = .pinWrong
    ∧ (processGetPin
        (processGetPin [] ⟨some [67, 49], some [67, 65], some [82, 49]⟩
          ⟨true, some [49, 50, 51, 52], true, false, true⟩).2.1
        ⟨some [67, 49], some [67, 65], some [82, 49]⟩
        ⟨true, some [49, 50, 51, 52], true, false, true⟩).2.2 = true := by
  have h := C4_wrong_pin_not_cached [] ⟨some [67, 49], some [67, 65], some [82, 49]⟩
    ⟨true, some [49, 50, 51, 52], true, false, true⟩ [49, 50, 51, 52]
    (by decide) (by decide) (by decide) (by decide) (by decide)
  exact ⟨h.1, h.2.2.2.2 _ [49, 50, 51, 52] (by decide) (by decide)⟩

/-! ## Command-line construction and PIN delivery (`processStart` lines
400-427 and 464-485, `wToUtf8`) -/

/-- One iteration of the `%`-escape scan of `processStart`: the accumulator
is the command buffer content, the escape flag `esc`, and `hasPinArg`.
In escape state, `'1'` appends the job's path (`usb_add(cmdBuf, path)`),
`'2'` appends the plaintext PIN and records `hasPinArg`, and any other
character falls through to `usb_addC` and is appended itself; outside it,
`'%'` only sets the escape flag. -/
def buildCmdStep (path pin : List Nat) :
    List Nat × Bool × Bool → Nat → List Nat × Bool × Bool
  | (acc, esc, hasPin), c =>
    if esc then
      if c = 49 then (acc ++ path, false, hasPin)
      else if c = 50 then (acc ++ pin, false, true)
      else (acc ++ [c], false, hasPin)
    else if c = 37 then (acc, true, hasPin)
    else (acc ++ [c], false, hasPin)

/-- The assembled command line and the `hasPinArg` flag after scanning the
template once. -/
def buildCmd (template path pin : List Nat) : List Nat × Bool :=
  let r := List.foldl (buildCmdStep path pin) ([], false, false) template
  (r.1, r.2.2)

/-- Modelled from the spec: the configured template is scanned once; `%1`
substitutes the job's absolute file path, `%2` substitutes the plaintext PIN
(recording that the template used `%2`), and any other `%` escape passes the
following character through literally; a trailing lone `%` produces
nothing. -/
def substSpec (path pin : List Nat) : List Nat → List Nat × Bool
  | [] => ([], false)
  | [c] => if c = 37 then ([], false) else ([c], false)
  | c1 :: c2 :: rest =>
    if c1 = 37 then
      if c2 = 49 then (path ++ (substSpec path pin rest).1, (substSpec path pin rest).2)
      else if c2 = 50 then (pin ++ (substSpec path pin rest).1, true)
      else (c2 :: (substSpec path pin rest).1, (substSpec path pin rest).2)
    else (c1 :: (substSpec path pin (c2 :: rest)).1, (substSpec path pin (c2 :: rest)).2)

theorem fold_subst (path pin : List Nat) : ∀ (template acc : List Nat) (hasPin : Bool),
    (List.foldl (buildCmdStep path pin) (acc, false, hasPin) template).1 =
      acc ++ (substSpec path pin template).1
    ∧ (List.foldl (buildCmdStep path pin) (acc, false, hasPin) template).2.2 =
      (hasPin || (substSpec path pin template).2)
  | [], acc, hasPin => by simp [substSpec]
  | [c], acc, hasPin => by
    by_cases hc : c = 37 <;> simp [substSpec, buildCmdStep, hc]
  | c1 :: c2 :: rest, acc, hasPin => by
    by_cases h1 : c1 = 37
    · subst h1
      have hstep1 : buildCmdStep path pin (acc, false, hasPin) 37 = (acc, true, hasPin) := by
        simp [buildCmdStep]
      by_cases h2 : c2 = 49
      · subst h2
        obtain ⟨ih1, ih2⟩ := fold_subst path pin rest (acc ++ path) hasPin
        have hstep2 : buildCmdStep path pin (acc, true, hasPin) 49 =
            (acc ++ path, false, hasPin) := by simp [buildCmdStep]
        rw [List.foldl_cons, hstep1, List.foldl_cons, hstep2]
        unfold substSpec
        rw [if_pos rfl, if_pos rfl]
        exact ⟨by rw [ih1]; simp, by rw [ih2]⟩
      · by_cases h3 : c2 = 50
        · subst h3
          obtain ⟨ih1, ih2⟩ := fold_subst path pin rest (acc ++ pin) true
          have hstep2 : buildCmdStep path pin (acc, true, hasPin) 50 =
              (acc ++ pin, false, true) := by simp [buildCmdStep]
          rw [List.foldl_cons, hstep1, List.foldl_cons, hstep2]
          unfold substSpec
          rw [if_pos rfl, if_neg h2, if_pos rfl]
          exact ⟨by rw [ih1]; simp, by rw [ih2]; simp⟩
        · obtain ⟨ih1, ih2⟩ := fold_subst path pin rest (acc ++ [c2]) hasPin
          have hstep2 : buildCmdStep path pin (acc, true, hasPin) c2 =
              (acc ++ [c2], false, hasPin) := by simp [buildCmdStep, h2, h3]
          rw [List.foldl_cons, hstep1, List.foldl_cons, hstep2]
          unfold substSpec
          rw [if_pos rfl, if_neg h2, if_neg h3]
          exact ⟨by rw [ih1]; simp, by rw [ih2]⟩
    · obtain ⟨ih1, ih2⟩ := fold_subst path pin (c2 :: rest) (acc ++ [c1]) hasPin
      have hstep : buildCmdStep path pin (acc, false, hasPin) c1 =
          (acc ++ [c1], false, hasPin) := by simp [buildCmdStep, h1]
      rw [List.foldl_cons, hstep]
      unfold substSpec
      rw [if_neg h1]
      exact ⟨by rw [ih1]; simp, by rw [ih2]⟩

/-- The single-pass escape scan computes exactly the substitution the
specification describes. -/
theorem buildCmd_eq_substSpec (template path pin : List Nat) :
    buildCmd template path pin = substSpec path pin template := by
  unfold buildCmd
  obtain ⟨h1, h2⟩ := fold_subst path pin template [] false
  dsimp only
  rw [h1, h2]
  simp

/-- UTF-16 code units to code points: `WideCharToMultiByte(CP_UTF8, 0, ...)`
pairs surrogates and replaces unpaired ones with `U+FFFD`. -/
def utf16ToCps : List Nat → List Nat
  | [] => []
  | [u] => if 0xD800 ≤ u ∧ u < 0xE000 then [0xFFFD] else [u]
  | u :: v :: rest =>
    if 0xD800 ≤ u ∧ u < 0xDC00 then
      if 0xDC00 ≤ v ∧ v < 0xE000 then
        (0x10000 + (u - 0xD800) * 0x400 + (v - 0xDC00)) :: utf16ToCps rest
      else 0xFFFD :: utf16ToCps (v :: rest)
    else if 0xDC00 ≤ u ∧ u < 0xE000 then 0xFFFD :: utf16ToCps (v :: rest)
    else u :: utf16ToCps (v :: rest)

/-- Standard UTF-8 encoding of one code point. -/
def cpToUtf8 (cp : Nat) : List Nat :=
  if cp ≤ 0x7F then [cp]
  else if cp ≤ 0x7FF then [0xC0 ||| (cp >>> 6), 0x80 ||| (cp &&& 0x3F)]
  else if cp ≤ 0xFFFF then
    [0xE0 ||| (cp >>> 12), 0x80 ||| ((cp >>> 6) &&& 0x3F), 0x80 ||| (cp &&& 0x3F)]
  else
    [0xF0 ||| (cp >>> 18), 0x80 ||| ((cp >>> 12) &&& 0x3F), 0x80 ||| ((cp >>> 6) &&& 0x3F),
     0x80 ||| (cp &&& 0x3F)]

/-- `wToUtf8` on a NUL-terminated UTF-16 string, cut at the terminator as
the subsequent `strlen` does. -/
def wToUtf8M (ws : List Nat) : List Nat :=
  ((utf16ToCps (ws.takeWhile fun u => decide (u ≠ 0))).map cpToUtf8).flatten

/-- Actions `processStart` performs on the child's standard input. -/
inductive StdinAct
  | write (bytes : List Nat)
  | flush
  | close
deriving DecidableEq, Repr

/-- `processStart` lines 464-485: when the template had no `%2`, the UTF-8
PIN is written to the child's stdin (`WriteFile`), flushed
(`FlushFileBuffers`), and the write end closed; otherwise the write end is
closed immediately without writing. -/
def pinDelivery (hasPinArg : Bool) (rawPin : List Nat) : List StdinAct :=
  if hasPinArg then [.close]
  else [.write (wToUtf8M rawPin), .flush, .close]

/-- **C7.** Starting a job scans the command template exactly once, so that
`%1` is replaced by the job's absolute file path, `%2` by the plaintext PIN,
and any other `%`-escape passes the following character through literally
(the scan equals the specification's substitution); and exactly when the
template contains no `%2`, the PIN is written to the subprocess's standard
input as UTF-8 after process creation, followed by a flush and closing of
the write end.  The closed conjuncts check the two template shapes on the
specification's example command line. -/
theorem C7_template_scan_and_stdin_pin :
    (∀ (template path pin : List Nat),
      buildCmd template path pin = substSpec path pin template)
    ∧ (∀ (template path pin : List Nat),
      pinDelivery (buildCmd template path pin).2 pin =
        (if (substSpec path pin template).2 then [StdinAct.close]
         else [.write (wToUtf8M pin), .flush, .close]))
    ∧ buildCmd (wstr "tool.exe %1 %2") (wstr "C:\\f.exe") [49, 50, 51, 52, 0] =
        ((wstr "tool.exe C:\\f.exe ") ++ [49, 50, 51, 52, 0], true)
    ∧ buildCmd (wstr "tool.exe %1 %%x") (wstr "C:\\f.exe") [49, 50, 51, 52, 0] =
        (wstr "tool.exe C:\\f.exe %x", false)
    ∧ pinDelivery
        (buildCmd (wstr "tool.exe %1") (wstr "C:\\f.exe") [49, 50, 51, 52, 0]).2
        [49, 50, 51, 52, 0] =
        [.write [49, 50, 51, 52], .flush, .close] := by
  refine ⟨buildCmd_eq_substSpec, ?_, by decide, by decide, by decide⟩
  intro template path pin
  rw [buildCmd_eq_substSpec]
  rfl

/-! ## Peer verification (`ipcIsValidProcess`, `showProcess` accept loop) -/

/-- Results of the Windows process-identity primitives consulted by
`ipcIsValidProcess` for the connected client. -/
structure PeerEnv where
  peerPid : Option Nat
  openOk : Bool
  imagePath : Option (List Nat)
deriving DecidableEq, Repr

/-- `towlower` as used by `_wcsicmp` in the C locale: ASCII case fold. -/
def towlowerW (c : Nat) : Nat := if 65 ≤ c ∧ c ≤ 90 then c + 32 else c

/-- `_wcsicmp(a, b) == 0`: the strings match after lowercasing each
character. -/
def wcsicmpEq (a b : List Nat) : Bool :=
  decide (a.map towlowerW = b.map towlowerW)

/-- `ipcIsValidProcess`: resolve the peer's process id
(`GetNamedPipeClientProcessId`), open it (`OpenProcess`), read its image
path (`GetModuleFileNameExW`), and compare with this process's image path
using `_wcsicmp` — a case-INSENSITIVE comparison, not byte-for-byte. -/
def ipcIsValidProcess (selfPath : List Nat) (env : PeerEnv) : Bool :=
  match env.peerPid with
  | none => false
  | some _ =>
    if ¬ env.openOk then false
    else
      match env.imagePath with
      | none => false
      | some p => wcsicmpEq selfPath p

/-- Modelled from the spec: the claim's verification, identical except that
the two image paths are compared byte-for-byte. -/
def ipcIsValidProcessSpec (selfPath : List Nat) (env : PeerEnv) : Bool :=
  match env.peerPid with
  | none => false
  | some _ =>
    if ¬ env.openOk then false
    else
      match env.imagePath with
      | none => false
      | some p => decide (selfPath = p)

/-- Control flow of the accept handler in `showProcess` (lines 1126-1140). -/
inductive AcceptResult
  | reading
  | relisten
deriving DecidableEq, Repr

/-- The accept handler in the `showProcess` wait loop (lines 1126-1140),
reached only when `ipcListen`'s `ConnectNamedPipe` pended: verify the peer
and post the first read (`ipcIsValidProcess(ctx.hPipe) && ipcReadAsync(&ctx)`);
on failure disconnect (`DisconnectNamedPipe`) and listen again (`ipcListen`,
which resets the decoder context) without having consumed any data.  This is
only one of the two accept avenues — see `ipcListen` and `ipcAcceptClient`
below for the `ERROR_PIPE_CONNECTED` shortcut, which bypasses this handler. -/
def ipcAcceptStep (selfPath : List Nat) (env : PeerEnv) (readPostOk : Bool)
    (s : IpcSt) : AcceptResult × IpcSt :=
  if ipcIsValidProcess selfPath env && readPostOk then (.reading, s)
  else (.relisten, ipcListenReset s)

/-- Outcome of `ConnectNamedPipe` inside `ipcListen` (lines 121-128):
returned `FALSE` with `ERROR_IO_PENDING` (the normal asynchronous accept),
`ERROR_PIPE_CONNECTED` (a client connected in the window between pipe
creation or disconnect and this call), or any other error. -/
inductive ConnectOutcome
  | pending
  | pipeConnected
  | failed
deriving DecidableEq, Repr

/-- What `ipcListen` left the server doing. -/
inductive ListenResult
  | waiting
  | reading
  | failedListen
deriving DecidableEq, Repr

/-- `ipcListen` (lines 107-131): reset the decoder context (lines 112-119,
`ipcListenReset`), then `ConnectNamedPipe`.  `ERROR_IO_PENDING` sets
`waitForClient` so the accept completes later in the `showProcess` wait
loop — the only place `ipcIsValidProcess` is ever called;
`ERROR_PIPE_CONNECTED` (lines 126-127) instead posts an asynchronous read
via `ipcReadAsync` at once, with NO peer verification; any other error
fails the listen. -/
def ipcListen (conn : ConnectOutcome) (readPostOk : Bool) (s : IpcSt) :
    ListenResult × IpcSt :=
  match conn with
  | .pending => (.waiting, ipcListenReset s)
  | .pipeConnected =>
      ((if readPostOk then .reading else .failedListen), ipcListenReset s)
  | .failed => (.failedListen, ipcListenReset s)

/-- How one complete accept attempt ends: read posted on a verified peer,
connection dropped and listening resumed, read posted on a peer that was
NEVER verified (the `ERROR_PIPE_CONNECTED` shortcut), or listen failure. -/
inductive AcceptOutcome
  | readingVerified
  | dropped
  | readingUnverified
  | listenFailed
deriving DecidableEq, Repr

/-- One complete accept attempt, starting at `ipcListen`: when
`ConnectNamedPipe` pends, the client event fires later and the `showProcess`
wait-loop handler (`ipcAcceptStep`, lines 1126-1140) verifies the peer
before posting the first read; when it reports `ERROR_PIPE_CONNECTED`,
`ipcListen` short-circuits into `ipcReadAsync` (lines 126-127) and the peer
is read without `ipcIsValidProcess` ever running.  `env` describes the
connecting peer in both cases; only the wait path consults it. -/
def ipcAcceptClient (selfPath : List Nat) (conn : ConnectOutcome)
    (env : PeerEnv) (readPostOk : Bool) (s : IpcSt) : AcceptOutcome × IpcSt :=
  match ipcListen conn readPostOk s with
  | (.waiting, s1) =>
      match ipcAcceptStep selfPath env readPostOk s1 with
      | (.reading, s2) => (.readingVerified, s2)
      | (.relisten, s2) => (.dropped, s2)
  | (.reading, s1) => (.readingUnverified, s1)
  | (.failedListen, s1) => (.listenFailed, s1)

theorem ipcListenReset_idem (s : IpcSt) :
    ipcListenReset (ipcListenReset s) = ipcListenReset s := rfl

theorem ipcAcceptClient_pending (sp : List Nat) (env : PeerEnv)
    (postOk : Bool) (s : IpcSt) :
    ipcAcceptClient sp .pending env postOk s =
      if ipcIsValidProcess sp env && postOk
      then (.readingVerified, ipcListenReset s)
      else (.dropped, ipcListenReset s) := by
  cases h : ipcIsValidProcess sp env && postOk <;>
    simp [ipcAcceptClient, ipcListen, ipcAcceptStep, h, ipcListenReset_idem]

/-- **C5, counterexample.** The claim fails in two ways.  (1) The peer is
NOT verified on every accept: when a client is already connected as
`ConnectNamedPipe` runs (`ERROR_PIPE_CONNECTED`, lines 126-127), `ipcListen`
posts a read immediately and `ipcIsValidProcess` never runs — the accept
outcome is the same for every peer, including one whose image path differs
from this process's in every byte.  (2) On the path that does verify, the
comparison is `_wcsicmp` (case-insensitive), not byte-for-byte: own path
`C:\\S.EXE` accepts peer path `c:\\s.exe`, which a byte-for-byte check
refuses. -/
theorem C5_accept_verification_counterexample :
    (∀ env : PeerEnv,
      ipcAcceptClient (wstr "C:\\S.EXE") .pipeConnected env true IpcSt.init
        = (.readingUnverified, ipcListenReset IpcSt.init))
    ∧ ipcIsValidProcess (wstr "C:\\S.EXE")
        ⟨some 42, true, some (wstr "D:\\EVIL.EXE")⟩ = false
    ∧ ipcIsValidProcessSpec (wstr "C:\\S.EXE")
        ⟨some 42, true, some (wstr "D:\\EVIL.EXE")⟩ = false
    ∧ ipcAcceptClient (wstr "C:\\S.EXE") .pipeConnected
        ⟨some 42, true, some (wstr "D:\\EVIL.EXE")⟩ true IpcSt.init
        = (.readingUnverified, ipcListenReset IpcSt.init)
    ∧ ipcIsValidProcess (wstr "C:\\S.EXE")
        ⟨some 42, true, some (wstr "c:\\s.exe")⟩ = true
    ∧ ipcIsValidProcessSpec (wstr "C:\\S.EXE")
        ⟨some 42, true, some (wstr "c:\\s.exe")⟩ = false := by
  exact ⟨fun env => rfl, by decide, by decide, rfl, by decide, by decide⟩

/-- **C5** (amended: peer verification happens only on the asynchronous
accept path, and compares the image paths case-insensitively).  When the
accept completes through the `showProcess` wait loop, the server verifies
the peer by resolving its process id to its executable image path and
comparing it CASE-INSENSITIVELY (`_wcsicmp`) with this process's own image
path — any failure to resolve the pid, open the process, or read the path
rejects; if the verification fails, the connection is dropped without
processing any data received from it (the decoder context is reset, the job
list untouched, the buffer empty) and the server resumes listening; a
verified peer proceeds to the posted read.  A client that is already
connected when `ConnectNamedPipe` runs (`ERROR_PIPE_CONNECTED`) is instead
read with no peer verification at all. -/
theorem C5_peer_verification_wait_path_case_insensitive :
    (∀ (sp : List Nat) (pid : Nat) (p : List Nat),
      ipcIsValidProcess sp ⟨some pid, true, some p⟩ = wcsicmpEq sp p)
    ∧ (∀ (sp : List Nat) (env : PeerEnv),
        env.peerPid = none ∨ env.openOk = false ∨ env.imagePath = none →
        ipcIsValidProcess sp env = false)
    ∧ (∀ (sp : List Nat) (env : PeerEnv) (postOk : Bool) (s : IpcSt),
        ipcIsValidProcess sp env = false →
        ipcAcceptClient sp .pending env postOk s = (.dropped, ipcListenReset s)
        ∧ (ipcListenReset s).jobs = s.jobs ∧ (ipcListenReset s).buf = [])
    ∧ (∀ (sp : List Nat) (env : PeerEnv) (s : IpcSt),
        ipcIsValidProcess sp env = true →
        ipcAcceptClient sp .pending env true s
          = (.readingVerified, ipcListenReset s))
    ∧ (∀ (sp : List Nat) (env : PeerEnv) (s : IpcSt),
        ipcAcceptClient sp .pipeConnected env true s
          = (.readingUnverified, ipcListenReset s)) := by
  refine ⟨?_, ?_, ?_, ?_, ?_⟩
  · intro sp pid p
    rfl
  · intro sp env h
    rcases h with h | h | h
    · unfold ipcIsValidProcess
      rw [h]
    · unfold ipcIsValidProcess
      cases hp : env.peerPid with
      | none => rfl
      | some _ => simp [h]
    · unfold ipcIsValidProcess
      cases hp : env.peerPid with
      | none => rfl
      | some _ =>
        rw [h]
        split_ifs <;> rfl
  · intro sp env postOk s h
    refine ⟨?_, rfl, rfl⟩
    rw [ipcAcceptClient_pending, h]
    simp
  · intro sp env s h
    rw [ipcAcceptClient_pending, h]
    simp
  · intro sp env s
    rfl

/-- Closed instance of `C5_peer_verification_wait_path_case_insensitive`:
on the wait path a peer with a different image path is dropped (reset
context, no new jobs) while a same-image peer proceeds to the read, and an
unresolvable peer pid fails verification. -/
theorem C5_peer_verification_wait_path_case_insensitive_witness :
    ipcAcceptClient (wstr "C:\\S.EXE") .pending
        ⟨some 7, true, some (wstr "D:\\other.exe")⟩ true IpcSt.init
      = (.dropped, ipcListenReset IpcSt.init)
    ∧ ipcAcceptClient (wstr "C:\\S.EXE") .pending
        ⟨some 7, true, some (wstr "c:\\s.exe")⟩ true IpcSt.init
      = (.readingVerified, ipcListenReset IpcSt.init)
    ∧ ipcIsValidProcess (wstr "C:\\S.EXE")
        ⟨none, true, some (wstr "c:\\s.exe")⟩ = false := by
  refine ⟨?_, ?_, ?_⟩
  · exact (C5_peer_verification_wait_path_case_insensitive.2.2.1
      (wstr "C:\\S.EXE") ⟨some 7, true, some (wstr "D:\\other.exe")⟩ true
      IpcSt.init (by decide)).1
  · exact C5_peer_verification_wait_path_case_insensitive.2.2.2.1
      (wstr "C:\\S.EXE") ⟨some 7, true, some (wstr "c:\\s.exe")⟩
      IpcSt.init (by decide)
  · exact C5_peer_verification_wait_path_case_insensitive.2.1
      (wstr "C:\\S.EXE") ⟨none, true, some (wstr "c:\\s.exe")⟩ (Or.inl rfl)

/-- Closed instance of `C9_unterminated_data_fills_buffer`: a single chunk of
8192 `'A'` bytes. -/
theorem C9_unterminated_data_fills_buffer_witness :
    (List.foldl ipcFeed IpcSt.init [List.replicate 8192 65]).jobs = []
    ∧ ipcReadCapacity (List.foldl ipcFeed IpcSt.init [List.replicate 8192 65]) = 0 := by
  have h := C9_unterminated_data_fills_buffer [List.replicate 8192 65]
    (by rw [List.flatten_cons, List.flatten_nil, List.append_nil, List.length_replicate]; rfl)
    (by
      intro u hu
      simp only [List.flatten_cons, List.flatten_nil, List.append_nil] at hu
      have := toU16s_replicate_65 8192 u hu
      omega)
  exact ⟨h.1, h.2.2.1⟩

end Siguwi
